import Mathlib

/-!
Chisel reduction passes: a shallow embedding.

The development embeds two translation units of the reducer,
`core/GlobalReduction.cpp` and `core/DeadcodeElimination.cpp`.

* A `SourceLocation` is clang's raw encoding: `0` is the invalid location, and the
  byte at offset `i` of the translation unit has location `i + 1`.
* A `SourceRange` handed to the text helpers is a half-open character range
  `[B, E)`: `GlobalReduction::test` and `BlockElimination::removeBlock` both
  build their end as "last character, `getLocWithOffset(1)`".
* The rewriter keeps, for every location of the original buffer, the text that
  currently stands there (one cell per original byte and one more for the end
  of the file), so that ranges computed once from the AST keep their meaning
  after earlier deletions.
* The helpers of the base classes (`getSourceText`, `removeSourceText`,
  `getEndLocationUntil`, `callOracle`) and the calls into `clang::Rewriter` have
  no source in the two files; each is a definition "Modelled from the spec".
* `std::map` tables are functions to `Option`, or the list of their entries in
  iteration order when the code iterates over them.
* The state records every text the oracle was run on (`OracleCalls`), so that the
  number of oracle calls and what each call saw can be stated.
* `Reduction::doDeltaDebugging` has no source in the two files either; its loop
  is a definition "Modelled from the spec" that drives the embedded
  `refineChunks` and `test`, with a bound on the number of rounds that is shown
  to be enough.
-/

namespace Chisel

/-! ## Source locations and ranges -/

/-- Raw encoding of `clang::SourceLocation`; the default-constructed location has `ID = 0`. -/
structure SourceLocation where
  ID : Nat
  deriving DecidableEq, Repr

namespace SourceLocation

/-- The default-constructed (invalid) location. -/
def invalid : SourceLocation := ⟨0⟩

/-- Validity test of `clang::SourceLocation::isValid`. -/
def isValid (L : SourceLocation) : Bool := L.ID != 0

/-- Shift of `clang::SourceLocation::getLocWithOffset`. -/
def getLocWithOffset (L : SourceLocation) (Offset : Int) : SourceLocation :=
  ⟨((L.ID : Int) + Offset).toNat⟩

end SourceLocation

/-- Pair of locations of `clang::SourceRange`; the default-constructed range is `(0, 0)`. -/
structure SourceRange where
  B : SourceLocation
  E : SourceLocation
  deriving DecidableEq, Repr

namespace SourceRange

/-- The default-constructed range `clang::SourceRange()`. -/
def empty : SourceRange := ⟨SourceLocation.invalid, SourceLocation.invalid⟩

/-- Test of `clang::SourceRange::isInvalid`: some end is invalid. -/
def isInvalid (R : SourceRange) : Bool := !(R.B.isValid && R.E.isValid)

/-- The byte at location `l` belongs to the character range `[B, E)`.
An invalid begin location addresses no text. -/
def covers (R : SourceRange) (l : Nat) : Prop :=
  R.B.ID ≠ 0 ∧ R.B.ID ≤ l ∧ l < R.E.ID

instance (R : SourceRange) (l : Nat) : Decidable (R.covers l) := by
  unfold covers; infer_instance

/-- Two character ranges share at least one location. -/
def Overlaps (R S : SourceRange) : Prop :=
  R.B.ID ≠ 0 ∧ S.B.ID ≠ 0 ∧ R.B.ID < S.E.ID ∧ S.B.ID < R.E.ID ∧
    R.B.ID < R.E.ID ∧ S.B.ID < S.E.ID

instance (R S : SourceRange) : Decidable (R.Overlaps S) := by
  unfold Overlaps; infer_instance

/-- A range is non-empty when it covers its own begin location. -/
def Nonempty (R : SourceRange) : Prop := R.B.ID ≠ 0 ∧ R.B.ID < R.E.ID

end SourceRange

/-! ## The AST as the passes see it -/

/-- Statement classes that `ClangDeadcodeElimination::isConstant` tells apart.
A `CastExpr` has exactly one child, its operand. -/
inductive Stmt where
  | StringLiteral
  | IntegerLiteral
  | CharacterLiteral
  | CompoundLiteralExpr
  | FloatingLiteral
  | ImaginaryLiteral
  | CastExpr (operand : Stmt)
  | ParenExpr (sub : Stmt)
  | CallExpr
  | DeclRefExprNode
  | UnaryOperator (sub : Stmt)
  | BinaryOperator (lhs rhs : Stmt)
  | OtherExpr
  deriving DecidableEq, Repr

/-- Declaration classes that the visitors tell apart (`ParmVar` is a `VarDecl`). -/
inductive DeclKind where
  | Function | Var | ParmVar | Record | Typedef | Enum | Empty
  | Label | Field | EnumConstant | Other
  deriving DecidableEq, Repr

/-- What the passes read from a `clang::Decl *`. The field `id` stands for the
pointer identity of the node. -/
structure Decl where
  id : Nat
  kind : DeclKind
  /-- Result of `getSourceRange()`: begin, and the location of the last token. -/
  range : SourceRange
  /-- Result of `FunctionDecl::isThisDeclarationADefinition()`. -/
  isThisDeclarationADefinition : Bool := false
  /-- Result of `FunctionDecl::isMain()`. -/
  isMain : Bool := false
  /-- Result of `VarDecl::hasGlobalStorage()`. -/
  hasGlobalStorage : Bool := false
  /-- Result of `VarDecl::getInit()`; `none` when `hasInit()` is false. -/
  init : Option Stmt := none
  /-- Result of `LabelDecl::getStmt()->getSubStmt()->getBeginLoc()`. -/
  subStmtBegin : SourceLocation := SourceLocation.invalid
  deriving DecidableEq, Repr

/-- Whether `llvm::dyn_cast<clang::VarDecl>` succeeds. -/
def Decl.isVarDecl (D : Decl) : Bool := D.kind == DeclKind.Var || D.kind == DeclKind.ParmVar

/-- Whether `llvm::dyn_cast<clang::FunctionDecl>` succeeds. -/
def Decl.isFunctionDecl (D : Decl) : Bool := D.kind == DeclKind.Function

/-- A `clang::DeclRefExpr *`: its identity and the declaration `getDecl()` returns. -/
structure DeclRefExpr where
  id : Nat
  decl : Decl
  deriving DecidableEq, Repr

/-- AST nodes, with their children in traversal order. -/
inductive ASTNode where
  | decl (D : Decl) (children : List ASTNode)
  | declRefExpr (DRE : DeclRefExpr)
  | stmt (children : List ASTNode)

/-- An element handed to delta debugging. `GlobalReduction::CastElement` injects a
`clang::Decl *` and `test` reads it back with `get<clang::Decl *>()`. -/
abbrev DDElement := Decl

/-- A chunk of elements, `DDElementVector`. -/
abbrev DDElementVector := List DDElement

/-! ## Source text store -/

/-- Modelled from the spec: the buffer of `clang::Rewriter` ("Source Text Store").
Cell `i` holds the text that currently stands at location `i + 1` of the
original buffer; the last cell stands for the end of the file. -/
abbrev RewriteBuffer := List (List Char)

/-- Apply `f` to every cell together with its location, the first cell having location `l`. -/
def mapLoc (f : Nat → List Char → List Char) : Nat → RewriteBuffer → RewriteBuffer
  | _, [] => []
  | l, c :: cs => f l c :: mapLoc f (l + 1) cs

namespace RewriteBuffer

/-- Fresh buffer over the text of a file. -/
def ofSource (Src : List Char) : RewriteBuffer := Src.map (fun c => [c]) ++ [[]]

/-- The rewritten text. -/
def text (RB : RewriteBuffer) : List Char := RB.flatten

/-- Cell transformer of a deletion. -/
def removeCell (R : SourceRange) (l : Nat) (c : List Char) : List Char :=
  if R.covers l then [] else c

/-- Cell transformer of a range read. -/
def keepCell (R : SourceRange) (l : Nat) (c : List Char) : List Char :=
  if R.covers l then c else []

/-- Cell transformer of a replacement: the new text goes to the cell of the begin
location, every other cell of the range is emptied. -/
def replaceCell (R : SourceRange) (NewStr : List Char) (l : Nat) (c : List Char) : List Char :=
  if l = R.B.ID then NewStr ++ (if l < R.E.ID then [] else c)
  else if R.covers l then [] else c

/-- Modelled from the spec: `Reduction::getSourceText` / `SourceManager::GetSourceText`
(not under src/), "capture the current text verbatim": the text that currently
stands in the range. -/
def getSourceText (RB : RewriteBuffer) (R : SourceRange) : List Char :=
  (mapLoc (keepCell R) 1 RB).flatten

/-- Modelled from the spec: `Reduction::removeSourceText` /
`Transformation::removeSourceText` (not under src/), "delete it from the
Source Text Store". -/
def removeSourceText (RB : RewriteBuffer) (R : SourceRange) : RewriteBuffer :=
  mapLoc (removeCell R) 1 RB

/-- Modelled from the spec: `clang::Rewriter::ReplaceText(SourceRange, StringRef)`,
"restore every captured range's original text": what stands in the range is
replaced by `NewStr`. -/
def ReplaceText (RB : RewriteBuffer) (R : SourceRange) (NewStr : List Char) : RewriteBuffer :=
  mapLoc (replaceCell R NewStr) 1 RB

end RewriteBuffer

/-- First location at or after `l` whose byte is `Symbol`, the list starting at location `l`. -/
def scanUntil (Symbol : Char) : List Char → Nat → Option Nat
  | [], _ => none
  | c :: cs, l => if c = Symbol then some l else scanUntil Symbol cs (l + 1)

/-- Modelled from the spec: `Reduction::getEndLocationUntil` and
`SourceManager::GetEndLocationUntil` (not under src/), "scanning forward to the
next statement-terminator token"; "resolution fails (returns an invalid/empty
range) if no lexical terminator is found before end-of-file". The scan reads
the buffer of the source manager, character by character, starting at the given
location; it answers the location of the terminator itself (the callers add
`getLocWithOffset(1)` to step past it) and the invalid location when there is none. -/
def GetEndLocationUntil (Src : List Char) (Loc : SourceLocation) (Symbol : Char) :
    SourceLocation :=
  if Loc.ID = 0 then SourceLocation.invalid
  else
    match scanUntil Symbol (Src.drop (Loc.ID - 1)) Loc.ID with
    | some l => ⟨l⟩
    | none => SourceLocation.invalid

/-- The member `Reduction::getEndLocationUntil(Range, Symbol)` scans from the end of the range. -/
def getEndLocationUntil (Src : List Char) (Range : SourceRange) (Symbol : Char) :
    SourceLocation :=
  GetEndLocationUntil Src Range.E Symbol

/-- The rollback loop that the passes share:
`for (i = 0; i < Reverts.size(); i++) TheRewriter.ReplaceText(Ranges[i], Reverts[i])`. -/
def revertLoop : List SourceRange → List (List Char) → RewriteBuffer → RewriteBuffer
  | Range :: Ranges, Revert :: Reverts, RB => revertLoop Ranges Reverts (RB.ReplaceText Range Revert)
  | _, _, RB => RB

/-! ## State shared by the passes -/

/-- The oracle: an external predicate over the text of the file on disk. -/
abbrev Oracle := List Char → Bool

/-- State of the base class of the passes and of the world around it: the buffer
of the source manager, the rewriter, the file on disk, and the record of the
texts the oracle was run on. -/
structure Transformation where
  Source : List Char
  TheRewriter : RewriteBuffer
  Disk : List Char
  OracleCalls : List (List Char) := []

namespace Transformation

/-- Modelled from the spec: `clang::Rewriter::overwriteChangedFiles`, "flush all
modified buffers to their backing files". -/
def overwriteChangedFiles (T : Transformation) : Transformation :=
  { T with Disk := T.TheRewriter.text }

/-- Modelled from the spec: `Reduction::callOracle` / `Transformation::callOracle`
(not under src/), "`check() -> bool`, invoked with no arguments after every
flush; it re-reads the current on-disk file(s)". -/
def callOracle (oracle : Oracle) (T : Transformation) : Bool × Transformation :=
  (oracle T.Disk, { T with OracleCalls := T.OracleCalls ++ [T.Disk] })

end Transformation

/-! ## GlobalReduction.cpp -/

/-- The table `UseInfo`, a `std::map` from declarations to their recorded uses. -/
abbrev UseMap := Decl → Option (List DeclRefExpr)

namespace UseMap

/-- Subscript of `std::map::operator[]`: the stored value, a default-constructed
one being inserted when the key is absent. -/
def index (M : UseMap) (D : Decl) : List DeclRefExpr × UseMap :=
  match M D with
  | some Uses => (Uses, M)
  | none => ([], Function.update M D (some []))

/-- Store a value under a key that `operator[]` returned a reference to. -/
def set (M : UseMap) (D : Decl) (Uses : List DeclRefExpr) : UseMap :=
  Function.update M D (some Uses)

/-- Number of recorded uses of a declaration (`0` when it has no entry). -/
def uses (M : UseMap) (D : Decl) : Nat := ((M D).getD []).length

end UseMap

/-- State of a `GlobalReduction` consumer, with the counters of the profiler and
the record of `FileManager::saveTemp("global", _)` calls. -/
structure GlobalReduction extends Transformation where
  Decls : List Decl := []
  UseInfo : UseMap := fun _ => none
  GlobalReductionCounter : Nat := 0
  SuccessfulGlobalReductionCounter : Nat := 0
  SavedTemps : List Bool := []

namespace GlobalReduction

/-- Consumer as `GlobalReduction::Initialize` leaves it on a file with text `Src`. -/
def start (Src : List Char) : GlobalReduction :=
  { Source := Src, TheRewriter := RewriteBuffer.ofSource Src, Disk := Src }

/-- Embedding of `GlobalReduction::CastElement`. -/
def CastElement (D : Decl) : DDElement := D

/-- Embedding of `GlobalReduction::callOracle`. -/
def callOracle (oracle : Oracle) (G : GlobalReduction) : Bool × GlobalReduction :=
  let G1 := { G with GlobalReductionCounter := G.GlobalReductionCounter + 1 }
  let r := G1.toTransformation.callOracle oracle
  let G2 := { G1 with toTransformation := r.2 }
  if r.1 then
    (true, { G2 with
      SuccessfulGlobalReductionCounter := G2.SuccessfulGlobalReductionCounter + 1,
      SavedTemps := G2.SavedTemps ++ [true] })
  else
    (false, { G2 with SavedTemps := G2.SavedTemps ++ [false] })

/-- The range that the loop of `GlobalReduction::test` computes for one element. -/
def rangeOf (Src : List Char) (D : DDElement) : SourceRange :=
  let Start := D.range.B
  let End :=
    if D.isFunctionDecl && D.isThisDeclarationADefinition then
      D.range.E.getLocWithOffset 1
    else if D.kind == DeclKind.Empty then
      D.range.E.getLocWithOffset 1
    else
      (getEndLocationUntil Src D.range ';').getLocWithOffset 1
  ⟨Start, End⟩

/-- The first loop of `GlobalReduction::test`: ranges and reverts are recorded,
the text of each range is removed. -/
def removeLoop (Src : List Char) :
    List DDElement → RewriteBuffer → List SourceRange → List (List Char) →
      RewriteBuffer × List SourceRange × List (List Char)
  | [], RB, Ranges, Reverts => (RB, Ranges, Reverts)
  | D :: rest, RB, Ranges, Reverts =>
    let Range := rangeOf Src D
    let CurrRevert := RB.getSourceText Range
    removeLoop Src rest (RB.removeSourceText Range) (Ranges ++ [Range]) (Reverts ++ [CurrRevert])

/-- Embedding of `GlobalReduction::test`. -/
def test (oracle : Oracle) (G : GlobalReduction) (ToBeRemoved : List DDElement) :
    Bool × GlobalReduction :=
  let loop := removeLoop G.Source ToBeRemoved G.TheRewriter [] []
  let Ranges := loop.2.1
  let Reverts := loop.2.2
  let G1 : GlobalReduction := { G with TheRewriter := loop.1 }
  let G2 : GlobalReduction := { G1 with toTransformation := G1.toTransformation.overwriteChangedFiles }
  let r := G2.callOracle oracle
  if r.1 then
    (true, r.2)
  else
    let G3 : GlobalReduction := { r.2 with TheRewriter := revertLoop Ranges Reverts r.2.TheRewriter }
    (false, { G3 with toTransformation := G3.toTransformation.overwriteChangedFiles })

/-- The predicate of `std::all_of` in `refineChunks`, with the entries that
`UseInfo[...]` inserts on the way; the scan stops at the first element that fails. -/
def allOfUnused : List DDElement → UseMap → Bool × UseMap
  | [], M => (true, M)
  | i :: rest, M =>
    let r := M.index i
    if r.1.length == 0 then allOfUnused rest r.2 else (false, r.2)

/-- The loop of `GlobalReduction::refineChunks` over the chunks. -/
def refineLoop : List DDElementVector → UseMap → List DDElementVector →
    List DDElementVector × UseMap
  | [], M, result => (result, M)
  | Chunk :: rest, M, result =>
    let r := allOfUnused Chunk M
    if r.1 then refineLoop rest r.2 (result ++ [Chunk]) else refineLoop rest r.2 result

/-- Embedding of `GlobalReduction::refineChunks`. -/
def refineChunks (G : GlobalReduction) (Chunks : List DDElementVector) :
    List DDElementVector × GlobalReduction :=
  let r := refineLoop Chunks G.UseInfo []
  (r.1, { G with UseInfo := r.2 })

/-- Embedding of `GlobalElementCollectionVisitor::findAndInsert`. -/
def findAndInsert (G : GlobalReduction) (D : Decl) (DRE : DeclRefExpr) : GlobalReduction :=
  match G.UseInfo D with
  | some Uses => { G with UseInfo := G.UseInfo.set D (Uses ++ [DRE]) }
  | none => { G with UseInfo := G.UseInfo.set D [DRE] }

/-- Embedding of `GlobalElementCollectionVisitor::VisitDeclRefExpr`. Both branches
subscript `UseInfo` with the declaration that `DRE->getDecl()` returns. -/
def VisitDeclRefExpr (G : GlobalReduction) (DRE : DeclRefExpr) : GlobalReduction :=
  if DRE.decl.isFunctionDecl then
    let FD := DRE.decl
    if FD.isThisDeclarationADefinition then
      let r := G.UseInfo.index FD
      { G with UseInfo := r.2.set FD (r.1 ++ [DRE]) }
    else
      let r := G.UseInfo.index DRE.decl
      { G with UseInfo := r.2.set DRE.decl (r.1 ++ [DRE]) }
  else G

/-- Embedding of `GlobalElementCollectionVisitor::VisitFunctionDecl`. -/
def VisitFunctionDecl (G : GlobalReduction) (FD : Decl) : GlobalReduction :=
  if !FD.isMain then { G with Decls := G.Decls ++ [FD] } else G

/-- Embedding of `GlobalElementCollectionVisitor::VisitVarDecl`. -/
def VisitVarDecl (G : GlobalReduction) (VD : Decl) : GlobalReduction :=
  if VD.hasGlobalStorage then { G with Decls := G.Decls ++ [VD] } else G

/-- Embedding of `GlobalElementCollectionVisitor::VisitRecordDecl`. -/
def VisitRecordDecl (G : GlobalReduction) (RD : Decl) : GlobalReduction :=
  { G with Decls := G.Decls ++ [RD] }

/-- Embedding of `GlobalElementCollectionVisitor::VisitTypedefDecl`. -/
def VisitTypedefDecl (G : GlobalReduction) (TD : Decl) : GlobalReduction :=
  { G with Decls := G.Decls ++ [TD] }

/-- Embedding of `GlobalElementCollectionVisitor::VisitEnumDecl`. -/
def VisitEnumDecl (G : GlobalReduction) (ED : Decl) : GlobalReduction :=
  { G with Decls := G.Decls ++ [ED] }

/-- Embedding of `GlobalElementCollectionVisitor::VisitEmptyDecl`. -/
def VisitEmptyDecl (G : GlobalReduction) (ED : Decl) : GlobalReduction :=
  { G with Decls := G.Decls ++ [ED] }

end GlobalReduction

/-- A call that `clang::RecursiveASTVisitor` makes on the visitor. -/
inductive Visited where
  | decl (D : Decl)
  | declRefExpr (DRE : DeclRefExpr)
  deriving DecidableEq, Repr

mutual
/-- Nodes that `RecursiveASTVisitor::TraverseDecl` visits, parents before children. -/
def ASTNode.preorder : ASTNode → List Visited
  | .decl D children => Visited.decl D :: ASTNode.preorderList children
  | .declRefExpr DRE => [Visited.declRefExpr DRE]
  | .stmt children => ASTNode.preorderList children
/-- Nodes visited below a list of siblings. -/
def ASTNode.preorderList : List ASTNode → List Visited
  | [] => []
  | n :: ns => n.preorder ++ ASTNode.preorderList ns
end

namespace GlobalReduction

/-- Dispatch of `RecursiveASTVisitor` to the `Visit*` members the visitor defines. -/
def visit (G : GlobalReduction) : Visited → GlobalReduction
  | .declRefExpr DRE => G.VisitDeclRefExpr DRE
  | .decl D =>
    match D.kind with
    | .Function => G.VisitFunctionDecl D
    | .Var => G.VisitVarDecl D
    | .ParmVar => G.VisitVarDecl D
    | .Record => G.VisitRecordDecl D
    | .Typedef => G.VisitTypedefDecl D
    | .Enum => G.VisitEnumDecl D
    | .Empty => G.VisitEmptyDecl D
    | _ => G

/-- The call `CollectionVisitor->TraverseDecl(*I)`. -/
def TraverseDecl (G : GlobalReduction) (N : ASTNode) : GlobalReduction :=
  N.preorder.foldl visit G

/-- Embedding of `GlobalReduction::HandleTopLevelDecl` on one declaration group. -/
def HandleTopLevelDecl (G : GlobalReduction) (D : List ASTNode) : GlobalReduction :=
  D.foldl TraverseDecl G

/-- The front end calls `HandleTopLevelDecl` once per top-level declaration group. -/
def collect (G : GlobalReduction) (TU : List (List ASTNode)) : GlobalReduction :=
  TU.foldl HandleTopLevelDecl G

/-- The vector `elements` that `GlobalReduction::HandleTranslationUnit` hands to
`doDeltaDebugging`. -/
def HandleTranslationUnitElements (G : GlobalReduction) : List DDElement :=
  G.Decls.map CastElement

end GlobalReduction

/-! ## DeadcodeElimination.cpp: unused locals and labels -/

/-- Order of `clang::SourceLocation`, on the raw encoding. -/
def SourceLocation.le (A B : SourceLocation) : Bool := decide (A.ID < B.ID) || A == B

/-- State of a `ClangDeadcodeElimination` consumer. `LocationMapping` lists the
entries of the map in its iteration order. -/
structure ClangDeadcodeElimination extends Transformation where
  LocationMapping : List (Decl × SourceRange) := []
  UnusedLocations : List SourceLocation := []

namespace ClangDeadcodeElimination

/-- Embedding of `ClangDeadcodeElimination::isConstant`. -/
def isConstant : Stmt → Bool
  | .StringLiteral => true
  | .IntegerLiteral => true
  | .CharacterLiteral => true
  | .CompoundLiteralExpr => true
  | .FloatingLiteral => true
  | .ImaginaryLiteral => true
  | .CastExpr FirstChild => isConstant FirstChild
  | _ => false

/-- The location `End` that one iteration of the loop of `getRemoveRange`
computes; it stays default-constructed when no branch assigns it. -/
def endOf (Src : List Char) (D : Decl) : SourceLocation :=
  if D.isVarDecl then
    match D.init with
    | some Init =>
      if isConstant Init then GetEndLocationUntil Src D.range.E ';'
      else SourceLocation.invalid
    | none => GetEndLocationUntil Src D.range.E ';'
  else if D.kind == DeclKind.Label then
    D.subStmtBegin.getLocWithOffset (-1)
  else SourceLocation.invalid

/-- The loop of `ClangDeadcodeElimination::getRemoveRange` over the entries. -/
def getRemoveRangeLoop (Src : List Char) (Loc : SourceLocation) :
    List (Decl × SourceRange) → SourceRange
  | [] => SourceRange.empty
  | Entry :: rest =>
    let Begin := Entry.2.B
    let End := endOf Src Entry.1
    if Begin.le Loc && Loc.le End then ⟨Begin, End⟩
    else getRemoveRangeLoop Src Loc rest

/-- Embedding of `ClangDeadcodeElimination::getRemoveRange`. -/
def getRemoveRange (C : ClangDeadcodeElimination) (Loc : SourceLocation) : SourceRange :=
  getRemoveRangeLoop C.Source Loc C.LocationMapping

/-- The first loop of `ClangDeadcodeElimination::removeUnusedElements`. Both
`Start` and `End` are `Range_temp.getBegin()`. -/
def removeLoop (C : ClangDeadcodeElimination) :
    List SourceLocation → RewriteBuffer → List SourceRange → List (List Char) →
      RewriteBuffer × List SourceRange × List (List Char)
  | [], RB, Ranges, Reverts => (RB, Ranges, Reverts)
  | Loc :: rest, RB, Ranges, Reverts =>
    let Range_temp := C.getRemoveRange Loc
    if Range_temp.isInvalid then removeLoop C rest RB Ranges Reverts
    else
      let Start := Range_temp.B
      let End := Range_temp.B
      let Range : SourceRange := ⟨Start, End⟩
      let Revert := RB.getSourceText ⟨Start, End⟩
      removeLoop C rest (RB.removeSourceText ⟨Start, End⟩) (Ranges ++ [Range]) (Reverts ++ [Revert])

/-- Embedding of `ClangDeadcodeElimination::removeUnusedElements`. -/
def removeUnusedElements (oracle : Oracle) (C : ClangDeadcodeElimination) :
    ClangDeadcodeElimination :=
  let loop := removeLoop C C.UnusedLocations C.TheRewriter [] []
  let Ranges := loop.2.1
  let Reverts := loop.2.2
  let C1 : ClangDeadcodeElimination := { C with TheRewriter := loop.1 }
  let C2 : ClangDeadcodeElimination :=
    { C1 with toTransformation := C1.toTransformation.overwriteChangedFiles }
  let r := C2.toTransformation.callOracle oracle
  let C3 : ClangDeadcodeElimination := { C2 with toTransformation := r.2 }
  if !r.1 then
    let C4 : ClangDeadcodeElimination :=
      { C3 with TheRewriter := revertLoop Ranges Reverts C3.TheRewriter }
    { C4 with toTransformation := C4.toTransformation.overwriteChangedFiles }
  else C3

end ClangDeadcodeElimination

/-! ## DeadcodeElimination.cpp: redundant blocks -/

/-- Statement nodes as the block pass reads them: a compound statement with the
locations of its two braces and its children, or any other statement. -/
inductive StmtNode where
  | CompoundStmt (LBracLoc RBracLoc : SourceLocation) (body : List StmtNode)
  | Other (children : List StmtNode)

/-- State of a `BlockElimination` consumer. The set `FunctionBodies`, written by
`VisitFunctionDecl` and read nowhere in the file, is left out. -/
structure BlockElimination extends Transformation

namespace BlockElimination

/-- Embedding of `BlockElimination::removeBlock`; the compound statement is given
by the results of `CS->getLBracLoc()` and `CS->getRBracLoc()`. -/
def removeBlock (oracle : Oracle) (B : BlockElimination) (LBracLoc RBracLoc : SourceLocation) :
    BlockElimination :=
  let Start_LBrac := LBracLoc
  let End_LBrac := LBracLoc.getLocWithOffset 1
  let Range_LBrac : SourceRange := ⟨Start_LBrac, End_LBrac⟩
  let Ranges_LBrac := [Range_LBrac]
  let Revert_LBrac := B.TheRewriter.getSourceText ⟨Start_LBrac, End_LBrac⟩
  let Reverts_LBrac := [Revert_LBrac]
  let RB1 := B.TheRewriter.removeSourceText ⟨Start_LBrac, End_LBrac⟩
  let Start_RBrac := RBracLoc
  let End_RBrac := RBracLoc.getLocWithOffset 1
  let Range_RBrac : SourceRange := ⟨Start_RBrac, End_RBrac⟩
  let Ranges_RBrac := [Range_RBrac]
  let Revert_RBrac := RB1.getSourceText ⟨Start_RBrac, End_RBrac⟩
  let Reverts_RBrac := [Revert_RBrac]
  let RB2 := RB1.removeSourceText ⟨Start_RBrac, End_RBrac⟩
  let B1 : BlockElimination := { B with TheRewriter := RB2 }
  let B2 : BlockElimination :=
    { B1 with toTransformation := B1.toTransformation.overwriteChangedFiles }
  let r := B2.toTransformation.callOracle oracle
  let B3 : BlockElimination := { B2 with toTransformation := r.2 }
  let B4 : BlockElimination :=
    if !r.1 then
      let RB3 := revertLoop Ranges_LBrac Reverts_LBrac B3.TheRewriter
      let RB4 := revertLoop Ranges_RBrac Reverts_RBrac RB3
      { B3 with TheRewriter := RB4 }
    else B3
  { B4 with toTransformation := B4.toTransformation.overwriteChangedFiles }

/-- Embedding of `BlockEliminationVisitor::VisitCompoundStmt`: when the body of
`CS` has size one and its front is a compound statement `SCS`, `removeBlock`
is called on `SCS`. -/
def VisitCompoundStmt (oracle : Oracle) (B : BlockElimination) : StmtNode → BlockElimination
  | .CompoundStmt _ _ [.CompoundStmt LBracLoc RBracLoc _] =>
    B.removeBlock oracle LBracLoc RBracLoc
  | _ => B

end BlockElimination

/-- The one-character range of a brace: from its location to the next. -/
def braceRange (Loc : SourceLocation) : SourceRange := ⟨Loc, Loc.getLocWithOffset 1⟩

/-! ## Delta debugging -/

/-- Contiguous chunks of `size` elements, `count` of them, followed by one last
chunk that takes what is left. -/
def splitChunks (size : Nat) : Nat → List DDElement → List DDElementVector
  | 0, Decls => [Decls]
  | count + 1, Decls => Decls.take size :: splitChunks size count (Decls.drop size)

/-- Modelled from the spec: the partition step of `Reduction::doDeltaDebugging`
(not under src/), "partition the Candidate Set into `g` contiguous chunks of
near-equal size (last chunk absorbs the remainder)". -/
def getCandidates (Decls : List DDElement) (g : Nat) : List DDElementVector :=
  splitChunks (Decls.length / g) (g - 1) Decls

/-- Modelled from the spec: the pass of `Reduction::doDeltaDebugging` over the
chunks, "for each remaining chunk, call `try_remove`": the first chunk that
the oracle accepts ends the pass, "on failure: leave the chunk's elements in
the Candidate Set; proceed to the next chunk". -/
def tryChunks (oracle : Oracle) :
    List DDElementVector → GlobalReduction → Option DDElementVector × GlobalReduction
  | [], G => (none, G)
  | Chunk :: rest, G =>
    let r := G.test oracle Chunk
    if r.1 then (some Chunk, r.2) else tryChunks oracle rest r.2

/-- Modelled from the spec: the loop of `Reduction::doDeltaDebugging` (not under
src/), with the number of rounds left as first argument. The granularity `g`
is used "up to `g` equal to the Candidate Set's size"; the chunks go through
`refineChunks`; "on success: permanently remove the chunk's elements from the
Candidate Set; keep `g` unchanged ... and restart partitioning"; "when a full
pass over all chunks at a granularity removes nothing: increase `g` (double
it)"; the loop ends after a pass without success in which every element was
a chunk of its own, "every single-element chunk has been tried and failed". -/
def ddLoop (oracle : Oracle) :
    Nat → GlobalReduction → List DDElement → Nat → Option (List DDElement × GlobalReduction)
  | 0, _, _, _ => none
  | rounds + 1, G, Decls, g =>
    if Decls.length = 0 then some (Decls, G)
    else
      let refined := G.refineChunks (getCandidates Decls (min g Decls.length))
      let r := tryChunks oracle refined.1 refined.2
      match r.1 with
      | some Chunk => ddLoop oracle rounds r.2 (Decls.filter (fun D => !Chunk.contains D)) g
      | none =>
        if Decls.length ≤ g then some (Decls, r.2)
        else ddLoop oracle rounds r.2 Decls (min (2 * g) Decls.length)

/-- Modelled from the spec: `Reduction::doDeltaDebugging` (not under src/),
"maintain granularity `g` ..., starting at 2". The number of rounds given to
the loop is enough for every run. -/
def doDeltaDebugging (oracle : Oracle) (G : GlobalReduction) (Decls : List DDElement) :
    Option (List DDElement × GlobalReduction) :=
  ddLoop oracle (2 * Decls.length + 1) G Decls 2

/-- Embedding of `GlobalReduction::HandleTranslationUnit`. -/
def GlobalReduction.HandleTranslationUnit (oracle : Oracle) (G : GlobalReduction) :
    Option (List DDElement × GlobalReduction) :=
  doDeltaDebugging oracle G G.HandleTranslationUnitElements

/-! ## Specification-side functions -/

/-- The buffer after the listed ranges were removed, one after the other. -/
def removeAll : RewriteBuffer → List SourceRange → RewriteBuffer
  | RB, [] => RB
  | RB, R :: Rs => removeAll (RB.removeSourceText R) Rs

/-- The texts captured while the listed ranges are removed, one after the other. -/
def captured : RewriteBuffer → List SourceRange → List (List Char)
  | _, [] => []
  | RB, R :: Rs => RB.getSourceText R :: captured (RB.removeSourceText R) Rs

/-- The text `Src`, its first byte at location `l`, without the bytes that one of
the ranges covers; the other bytes keep their order. -/
def textWithout (Ranges : List SourceRange) : Nat → List Char → List Char
  | _, [] => []
  | l, c :: cs =>
    if Ranges.any (fun R => decide (R.covers l)) then textWithout Ranges (l + 1) cs
    else c :: textWithout Ranges (l + 1) cs

/-- A declaration that the collection visitor of `GlobalReduction` keeps. -/
def isCollected (D : Decl) : Bool :=
  match D.kind with
  | .Function => !D.isMain
  | .Var => D.hasGlobalStorage
  | .ParmVar => D.hasGlobalStorage
  | .Record => true
  | .Typedef => true
  | .Enum => true
  | .Empty => true
  | _ => false

/-- The declarations among the visited nodes, in the order of the visits. -/
def visitedDecls (Vs : List Visited) : List Decl :=
  Vs.filterMap (fun V => match V with
    | .decl D => some D
    | .declRefExpr _ => none)

/-- The nodes that the traversal of a whole translation unit visits, in order. -/
def visitedNodes (TU : List (List ASTNode)) : List Visited :=
  ASTNode.preorderList TU.flatten

/-- The declarations that are direct children of the translation unit. -/
def topLevelDecls (TU : List (List ASTNode)) : List Decl :=
  TU.flatten.filterMap (fun N => match N with
    | .decl D _ => some D
    | _ => none)

/-- The ranges that the loop of `removeUnusedElements` records: one per flagged
location whose range resolves, each from `Range_temp.getBegin()` to
`Range_temp.getBegin()`. -/
def recordedRanges (C : ClangDeadcodeElimination) (Locs : List SourceLocation) :
    List SourceRange :=
  Locs.filterMap (fun Loc =>
    if (C.getRemoveRange Loc).isInvalid then none
    else some ⟨(C.getRemoveRange Loc).B, (C.getRemoveRange Loc).B⟩)

/-- The literal classes that `isConstant` accepts outright. -/
def isLiteral : Stmt → Bool
  | .StringLiteral => true
  | .IntegerLiteral => true
  | .CharacterLiteral => true
  | .CompoundLiteralExpr => true
  | .FloatingLiteral => true
  | .ImaginaryLiteral => true
  | _ => false

/-- The expression under all the casts that wrap it. -/
def stripCasts : Stmt → Stmt
  | .CastExpr operand => stripCasts operand
  | S => S

/-- A literal, or a cast whose operand is a literal: one level of cast unwrapping. -/
def isConstantOneLevel : Stmt → Bool
  | .CastExpr operand => isLiteral operand
  | S => isLiteral S

/-- The test of one iteration of the loop of `getRemoveRange`:
`(Begin < Loc || Begin == Loc) && (Loc < End || Loc == End)`. -/
def entryHolds (Src : List Char) (Loc : SourceLocation) (Entry : Decl × SourceRange) : Bool :=
  Entry.2.B.le Loc && Loc.le (ClangDeadcodeElimination.endOf Src Entry.1)

/-- The range that an iteration of the loop of `getRemoveRange` returns. -/
def entryRange (Src : List Char) (Entry : Decl × SourceRange) : SourceRange :=
  ⟨Entry.2.B, ClangDeadcodeElimination.endOf Src Entry.1⟩

/-- A sequence of calls of `GlobalReduction::test`, each on the state the call
before it left. -/
def testSeq (oracle : Oracle) (G : GlobalReduction) (Calls : List (List DDElement)) :
    GlobalReduction :=
  Calls.foldl (fun G1 ToBeRemoved => (GlobalReduction.test oracle G1 ToBeRemoved).2) G

/-! ## Concrete translation units -/

namespace Examples

/-- The text `int a,b;void f(){static int c;}`. -/
def sharedSrc : List Char := "int a,b;void f()\x7bstatic int c;\x7d".toList

/-- The declarator `a` of `int a,b;`: from `int` to the name `a`. -/
def varA : Decl := { id := 1, kind := .Var, range := ⟨⟨1⟩, ⟨5⟩⟩, hasGlobalStorage := true }

/-- The declarator `b` of `int a,b;`: from `int` to the name `b`. -/
def varB : Decl := { id := 2, kind := .Var, range := ⟨⟨1⟩, ⟨7⟩⟩, hasGlobalStorage := true }

/-- The definition of `f`: from `void` to the closing brace. -/
def funF : Decl :=
  { id := 3, kind := .Function, range := ⟨⟨9⟩, ⟨31⟩⟩, isThisDeclarationADefinition := true }

/-- The static local `c` of `f`: from `static` to the name `c`. -/
def varC : Decl := { id := 4, kind := .Var, range := ⟨⟨18⟩, ⟨29⟩⟩, hasGlobalStorage := true }

/-- The translation unit of `sharedSrc`: the declaration group of `int a,b;`, then
the definition of `f` whose body holds the declaration statement of `c`. -/
def sharedTU : List (List ASTNode) :=
  [[.decl varA [], .decl varB []],
   [.decl funF [.stmt [.stmt [.decl varC []]]]]]

/-- The prototype `void f(void);` of the text
`void f(void);void g(void){f();}void f(void){}`. -/
def protoF : Decl := { id := 1, kind := .Function, range := ⟨⟨1⟩, ⟨12⟩⟩ }

/-- The definition `void f(void){}` of the same text. -/
def defF : Decl :=
  { id := 3, kind := .Function, range := ⟨⟨32⟩, ⟨45⟩⟩, isThisDeclarationADefinition := true }

/-- The reference `f` in the call `f()` inside `g`; it resolves to the prototype,
the only declaration of `f` in scope there. -/
def callF : DeclRefExpr := { id := 10, decl := protoF }

/-- The global `v` of the text `int v;int g(void){return v;}`. -/
def globalV : Decl := { id := 1, kind := .Var, range := ⟨⟨1⟩, ⟨5⟩⟩, hasGlobalStorage := true }

/-- The reference `v` in `return v;`. -/
def refV : DeclRefExpr := { id := 11, decl := globalV }

/-- A consumer with nothing collected yet. -/
def emptyG : GlobalReduction := GlobalReduction.start []

/-- The text `void f(){int x = 5;}`. -/
def constSrc : List Char := "void f()\x7bint x = 5;\x7d".toList

/-- The local `x` of `constSrc`: from `int` to the literal `5`. -/
def constX : Decl :=
  { id := 1, kind := .Var, range := ⟨⟨10⟩, ⟨18⟩⟩, init := some Stmt.IntegerLiteral }

/-- The consumer on `constSrc` with `x` flagged unused at its name, location 14. -/
def constC : ClangDeadcodeElimination :=
  { Source := constSrc, TheRewriter := RewriteBuffer.ofSource constSrc, Disk := constSrc,
    LocationMapping := [(constX, constX.range)], UnusedLocations := [⟨14⟩] }

/-- The text `void f(){int a = 1, x = foo();}`. -/
def callSrc : List Char := "void f()\x7bint a = 1, x = foo();\x7d".toList

/-- The local `a` of `callSrc`: from `int` to the literal `1`. -/
def callA : Decl :=
  { id := 1, kind := .Var, range := ⟨⟨10⟩, ⟨18⟩⟩, init := some Stmt.IntegerLiteral }

/-- The local `x` of `callSrc`: from `int` to the closing parenthesis of `foo()`. -/
def callX : Decl :=
  { id := 2, kind := .Var, range := ⟨⟨10⟩, ⟨29⟩⟩, init := some Stmt.CallExpr }

/-- The consumer on `callSrc` with `x` flagged unused at its name, location 21. -/
def callC : ClangDeadcodeElimination :=
  { Source := callSrc, TheRewriter := RewriteBuffer.ofSource callSrc, Disk := callSrc,
    LocationMapping := [(callA, callA.range), (callX, callX.range)],
    UnusedLocations := [⟨21⟩] }

/-- The text `void f(){int x;int y;}`. -/
def twoSrc : List Char := "void f()\x7bint x;int y;\x7d".toList

/-- The local `x` of `twoSrc`. -/
def twoX : Decl := { id := 1, kind := .Var, range := ⟨⟨10⟩, ⟨14⟩⟩ }

/-- The local `y` of `twoSrc`. -/
def twoY : Decl := { id := 2, kind := .Var, range := ⟨⟨16⟩, ⟨20⟩⟩ }

/-- The consumer on `twoSrc` with both locals flagged unused at their names. -/
def twoC : ClangDeadcodeElimination :=
  { Source := twoSrc, TheRewriter := RewriteBuffer.ofSource twoSrc, Disk := twoSrc,
    LocationMapping := [(twoX, twoX.range), (twoY, twoY.range)],
    UnusedLocations := [⟨14⟩, ⟨20⟩] }

/-- The text `void f(){int a[({int x;1;})];}`. -/
def nestSrc : List Char := "void f()\x7bint a[(\x7bint x;1;\x7d)];\x7d".toList

/-- The array `a` of `nestSrc`: from `int` to the closing bracket. -/
def nestA : Decl := { id := 1, kind := .Var, range := ⟨⟨10⟩, ⟨28⟩⟩ }

/-- The local `x` inside the bound of `a`: from the inner `int` to the name `x`. -/
def nestX : Decl := { id := 2, kind := .Var, range := ⟨⟨18⟩, ⟨22⟩⟩ }

/-- The text of two lines `#define S ;` and `int a S`: the terminator of the
declaration comes from the macro, no `;` follows `a` in the buffer. -/
def macroSrc : List Char := "#define S ;\nint a S\n".toList

/-- The global `a` of `macroSrc`. -/
def macroA : Decl := { id := 1, kind := .Var, range := ⟨⟨13⟩, ⟨17⟩⟩, hasGlobalStorage := true }

/-- The text of two lines `#define S ;` and `void f(){int x S}`. -/
def macroLocalSrc : List Char := "#define S ;\nvoid f()\x7bint x S\x7d\n".toList

/-- The local `x` of `macroLocalSrc`. -/
def macroX : Decl := { id := 1, kind := .Var, range := ⟨⟨22⟩, ⟨26⟩⟩ }

/-- The consumer on `macroLocalSrc` with `x` flagged unused at its name. -/
def macroC : ClangDeadcodeElimination :=
  { Source := macroLocalSrc, TheRewriter := RewriteBuffer.ofSource macroLocalSrc,
    Disk := macroLocalSrc, LocationMapping := [(macroX, macroX.range)],
    UnusedLocations := [⟨26⟩] }

/-- The text `void f(){int a,b;}`. -/
def pairSrc : List Char := "void f()\x7bint a,b;\x7d".toList

/-- The local `a` of `pairSrc`. -/
def pairA : Decl := { id := 1, kind := .Var, range := ⟨⟨10⟩, ⟨14⟩⟩ }

/-- The local `b` of `pairSrc`. -/
def pairB : Decl := { id := 2, kind := .Var, range := ⟨⟨10⟩, ⟨16⟩⟩ }

/-- The consumer on `pairSrc` with both locals flagged unused at their names. -/
def pairC : ClangDeadcodeElimination :=
  { Source := pairSrc, TheRewriter := RewriteBuffer.ofSource pairSrc, Disk := pairSrc,
    LocationMapping := [(pairA, pairA.range), (pairB, pairB.range)],
    UnusedLocations := [⟨14⟩, ⟨16⟩] }

/-- The text `void f(){ {x;} }`. -/
def blockSrc : List Char := "void f()\x7b \x7bx;\x7d \x7d".toList

/-- The body of `f` in `blockSrc`, braces at locations 9 and 16, whose only child
is the block with braces at locations 11 and 14. -/
def blockCS : StmtNode :=
  .CompoundStmt ⟨9⟩ ⟨16⟩ [.CompoundStmt ⟨11⟩ ⟨14⟩ [.Other []]]

/-- The consumer on `blockSrc`. -/
def blockB : BlockElimination :=
  { Source := blockSrc, TheRewriter := RewriteBuffer.ofSource blockSrc, Disk := blockSrc }

/-- The text `void f(){}void g(){f();}`. -/
def staleSrc : List Char := "void f()\x7b\x7dvoid g()\x7bf();\x7d".toList

/-- The definition of `f` in `staleSrc`. -/
def staleF : Decl :=
  { id := 1, kind := .Function, range := ⟨⟨1⟩, ⟨10⟩⟩, isThisDeclarationADefinition := true }

/-- The definition of `g` in `staleSrc`. -/
def staleG : Decl :=
  { id := 2, kind := .Function, range := ⟨⟨11⟩, ⟨24⟩⟩, isThisDeclarationADefinition := true }

/-- The translation unit of `staleSrc`: `g` calls `f`. -/
def staleTU : List (List ASTNode) :=
  [[.decl staleF [.stmt []]],
   [.decl staleG [.stmt [.stmt [.declRefExpr { id := 10, decl := staleF }]]]]]

/-- The consumer after the collection over `staleTU`. -/
def staleCollected : GlobalReduction := (GlobalReduction.start staleSrc).collect staleTU

/-- The text `a(){}b(){}c(){}d(){}e(){}` of five function definitions. -/
def fiveSrc : List Char :=
  "a()\x7b\x7db()\x7b\x7dc()\x7b\x7dd()\x7b\x7de()\x7b\x7d".toList

/-- The definition number `i` (from 0) of `fiveSrc`. -/
def fiveDecl (i : Nat) : Decl :=
  { id := i, kind := .Function, range := ⟨⟨5 * i + 1⟩, ⟨5 * i + 5⟩⟩,
    isThisDeclarationADefinition := true }

/-- The five definitions of `fiveSrc`, none of them used. -/
def fiveDecls : List Decl := [fiveDecl 0, fiveDecl 1, fiveDecl 2, fiveDecl 3, fiveDecl 4]

/-- An oracle that accepts the whole text, the text without `e`, and the text
that keeps `c` and `d` only. -/
def fiveOracle : Oracle := fun t =>
  decide (t = fiveSrc) || decide (t = fiveSrc.take 20) ||
    decide (t = (fiveSrc.drop 10).take 10)

/-- The consumer on `fiveSrc` with the five definitions collected. -/
def fiveG : GlobalReduction := { GlobalReduction.start fiveSrc with Decls := fiveDecls }

/-- The oracle that rejects every text. -/
def rejectAll : Oracle := fun _ => false

/-- The oracle that accepts every text. -/
def acceptAll : Oracle := fun _ => true

end Examples

/-! ## Lemmas on the source text store -/

theorem mapLoc_mapLoc (f g : Nat → List Char → List Char) (l : Nat) (cs : RewriteBuffer) :
    mapLoc f l (mapLoc g l cs) = mapLoc (fun k c => f k (g k c)) l cs := by
  induction cs generalizing l with
  | nil => rfl
  | cons c cs ih => simp [mapLoc, ih]

theorem mapLoc_congr (f g : Nat → List Char → List Char) (l : Nat) (cs : RewriteBuffer)
    (h : ∀ k, l ≤ k → ∀ c, f k c = g k c) : mapLoc f l cs = mapLoc g l cs := by
  induction cs generalizing l with
  | nil => rfl
  | cons c cs ih =>
    simp only [mapLoc]
    rw [h l (le_refl l) c, ih (l + 1) (fun k hk c => h k (by omega) c)]

theorem mapLoc_id (f : Nat → List Char → List Char) (l : Nat) (cs : RewriteBuffer)
    (h : ∀ k, l ≤ k → ∀ c, f k c = c) : mapLoc f l cs = cs := by
  induction cs generalizing l with
  | nil => rfl
  | cons c cs ih =>
    simp only [mapLoc]
    rw [h l (le_refl l) c, ih (l + 1) (fun k hk c => h k (by omega) c)]

/-- Past the end of a range nothing is kept. -/
theorem flatten_keep_of_ge (R : SourceRange) (l : Nat) (cs : RewriteBuffer) (h : R.E.ID ≤ l) :
    (mapLoc (RewriteBuffer.keepCell R) l cs).flatten = [] := by
  induction cs generalizing l with
  | nil => rfl
  | cons c cs ih =>
    have hc : ¬ R.covers l := fun hc => by unfold SourceRange.covers at hc; omega
    simp [mapLoc, RewriteBuffer.keepCell, hc, ih (l + 1) (by omega)]

/-- From the begin of a range on, the text splits into what the range keeps
followed by what a removal leaves. -/
theorem flatten_split_of_ge (R : SourceRange) (l : Nat) (cs : RewriteBuffer)
    (hB : R.B.ID ≠ 0) (h : R.B.ID ≤ l) :
    cs.flatten = (mapLoc (RewriteBuffer.keepCell R) l cs).flatten ++
      (mapLoc (RewriteBuffer.removeCell R) l cs).flatten := by
  induction cs generalizing l with
  | nil => rfl
  | cons c cs ih =>
    by_cases hE : l < R.E.ID
    · have hc : R.covers l := ⟨hB, h, hE⟩
      simp [mapLoc, RewriteBuffer.keepCell, RewriteBuffer.removeCell, hc]
      exact ih (l + 1) (by omega)
    · have hc : ¬ R.covers l := fun hc => by unfold SourceRange.covers at hc; omega
      have hk := flatten_keep_of_ge R (l + 1) cs (by omega)
      have := ih (l + 1) (by omega)
      simp [mapLoc, RewriteBuffer.keepCell, RewriteBuffer.removeCell, hc, hk] at this ⊢
      exact this

/-- Removing a non-empty range and putting back what it held restores the text. -/
theorem flatten_restore_aux (R : SourceRange) (hB : R.B.ID ≠ 0) (hBE : R.B.ID < R.E.ID)
    (l : Nat) (cs : RewriteBuffer) (h : l ≤ R.B.ID) :
    (mapLoc (fun k c => RewriteBuffer.replaceCell R
        (mapLoc (RewriteBuffer.keepCell R) l cs).flatten k (RewriteBuffer.removeCell R k c))
      l cs).flatten = cs.flatten := by
  induction cs generalizing l with
  | nil => rfl
  | cons c cs ih =>
    by_cases hl : l = R.B.ID
    · have hc : R.covers l := ⟨hB, by omega, by omega⟩
      have hrest : ∀ t, mapLoc (fun k c => RewriteBuffer.replaceCell R t k
            (RewriteBuffer.removeCell R k c)) (l + 1) cs
          = mapLoc (RewriteBuffer.removeCell R) (l + 1) cs := by
        intro t
        apply mapLoc_congr
        intro k hk d
        have hne : k ≠ R.B.ID := by omega
        unfold RewriteBuffer.replaceCell RewriteBuffer.removeCell
        simp only [hne, if_false]
        split_ifs <;> rfl
      have hsplit := flatten_split_of_ge R (l + 1) cs hB (by omega)
      have hlt : l < R.E.ID := by omega
      simp only [mapLoc, List.flatten_cons]
      rw [hrest, hsplit]
      subst hl
      simp [RewriteBuffer.replaceCell, RewriteBuffer.keepCell, hc, hlt]
    · have hc : ¬ R.covers l := fun hc => by unfold SourceRange.covers at hc; omega
      have := ih (l + 1) (by omega)
      simp only [mapLoc, List.flatten_cons]
      simp only [RewriteBuffer.keepCell, RewriteBuffer.removeCell, RewriteBuffer.replaceCell,
        hc, hl, if_false, List.nil_append] at this ⊢
      rw [this]

theorem covers_nonempty (R : SourceRange) (l : Nat) (h : R.covers l) : R.Nonempty := by
  unfold SourceRange.covers at h
  exact ⟨h.1, by omega⟩

theorem flatten_mapLoc_nil (l : Nat) (cs : RewriteBuffer) :
    (mapLoc (fun _ _ => []) l cs).flatten = [] := by
  induction cs generalizing l with
  | nil => rfl
  | cons c cs ih => simp only [mapLoc, List.flatten_cons, ih, List.append_nil]

theorem getSourceText_of_not_nonempty (RB : RewriteBuffer) (R : SourceRange)
    (h : ¬ R.Nonempty) : RB.getSourceText R = [] := by
  have : mapLoc (RewriteBuffer.keepCell R) 1 RB = mapLoc (fun _ _ => []) 1 RB := by
    apply mapLoc_congr
    intro k _ c
    have hc : ¬ R.covers k := fun hc => h (covers_nonempty R k hc)
    simp [RewriteBuffer.keepCell, hc]
  unfold RewriteBuffer.getSourceText
  rw [this, flatten_mapLoc_nil]

theorem removeSourceText_of_not_nonempty (RB : RewriteBuffer) (R : SourceRange)
    (h : ¬ R.Nonempty) : RB.removeSourceText R = RB := by
  apply mapLoc_id
  intro k _ c
  have hc : ¬ R.covers k := fun hc => h (covers_nonempty R k hc)
  simp [RewriteBuffer.removeCell, hc]

theorem ReplaceText_nil_of_not_nonempty (RB : RewriteBuffer) (R : SourceRange)
    (h : ¬ R.Nonempty) : RB.ReplaceText R [] = RB := by
  apply mapLoc_id
  intro k hk c
  have hc : ¬ R.covers k := fun hc => h (covers_nonempty R k hc)
  unfold RewriteBuffer.replaceCell
  by_cases hkB : k = R.B.ID
  · have : ¬ k < R.E.ID := fun hlt => h ⟨by omega, by omega⟩
    simp [hkB, this]
    intro hlt
    exact absurd (hkB ▸ hlt) this
  · simp [hkB, hc]

/-- One removal followed by the replacement of the same range with the captured
text leaves the rewritten text as it was. -/
theorem text_ReplaceText_removeSourceText (RB : RewriteBuffer) (R : SourceRange) :
    ((RB.removeSourceText R).ReplaceText R (RB.getSourceText R)).text = RB.text := by
  by_cases hne : R.Nonempty
  · unfold RewriteBuffer.ReplaceText RewriteBuffer.removeSourceText RewriteBuffer.getSourceText
      RewriteBuffer.text
    rw [mapLoc_mapLoc]
    exact flatten_restore_aux R hne.1 hne.2 1 RB (by have := hne.1; omega)
  · rw [getSourceText_of_not_nonempty RB R hne, removeSourceText_of_not_nonempty RB R hne,
      ReplaceText_nil_of_not_nonempty RB R hne]

/-! ## Edits of ranges that share no byte commute -/

theorem replaceCell_removeCell_comm (R S : SourceRange) (t : List Char) (l : Nat)
    (c : List Char) (hRS : ¬ R.Overlaps S) (ht : R.Nonempty ∨ t = []) (hl : 1 ≤ l) :
    RewriteBuffer.replaceCell R t l (RewriteBuffer.removeCell S l c)
      = RewriteBuffer.removeCell S l (RewriteBuffer.replaceCell R t l c) := by
  unfold RewriteBuffer.replaceCell RewriteBuffer.removeCell SourceRange.covers
  unfold SourceRange.Overlaps at hRS
  unfold SourceRange.Nonempty at ht
  rcases ht with ht | ht
  · split_ifs <;> first | rfl | (exfalso; omega)
  · subst ht
    split_ifs <;> rfl

theorem keepCell_replaceCell (R S : SourceRange) (t : List Char) (l : Nat)
    (c : List Char) (hRS : ¬ R.Overlaps S) (ht : R.Nonempty ∨ t = []) (hl : 1 ≤ l) :
    RewriteBuffer.keepCell S l (RewriteBuffer.replaceCell R t l c)
      = RewriteBuffer.keepCell S l c := by
  unfold RewriteBuffer.replaceCell RewriteBuffer.keepCell SourceRange.covers
  unfold SourceRange.Overlaps at hRS
  unfold SourceRange.Nonempty at ht
  rcases ht with ht | ht
  · split_ifs <;> first | rfl | (exfalso; omega)
  · subst ht
    split_ifs <;> first | rfl | (exfalso; omega)

theorem ReplaceText_removeSourceText_comm (RB : RewriteBuffer) (R S : SourceRange)
    (t : List Char) (hRS : ¬ R.Overlaps S) (ht : R.Nonempty ∨ t = []) :
    (RB.removeSourceText S).ReplaceText R t = (RB.ReplaceText R t).removeSourceText S := by
  unfold RewriteBuffer.ReplaceText RewriteBuffer.removeSourceText
  rw [mapLoc_mapLoc, mapLoc_mapLoc]
  apply mapLoc_congr
  intro k hk c
  exact replaceCell_removeCell_comm R S t k c hRS ht hk

theorem getSourceText_ReplaceText (RB : RewriteBuffer) (R S : SourceRange)
    (t : List Char) (hRS : ¬ R.Overlaps S) (ht : R.Nonempty ∨ t = []) :
    (RB.ReplaceText R t).getSourceText S = RB.getSourceText S := by
  unfold RewriteBuffer.ReplaceText RewriteBuffer.getSourceText
  rw [mapLoc_mapLoc]
  congr 1
  apply mapLoc_congr
  intro k hk c
  exact keepCell_replaceCell R S t k c hRS ht hk

theorem removeAll_ReplaceText (R : SourceRange) (t : List Char) (ht : R.Nonempty ∨ t = [])
    (Rs : List SourceRange) (hRs : ∀ S ∈ Rs, ¬ R.Overlaps S) (RB : RewriteBuffer) :
    removeAll (RB.ReplaceText R t) Rs = (removeAll RB Rs).ReplaceText R t := by
  induction Rs generalizing RB with
  | nil => rfl
  | cons S Rs ih =>
    have hS := hRs S (List.mem_cons_self S Rs)
    simp only [removeAll]
    rw [← ReplaceText_removeSourceText_comm RB R S t hS ht]
    exact ih (fun S2 h2 => hRs S2 (List.mem_cons_of_mem S h2)) _

theorem captured_ReplaceText (R : SourceRange) (t : List Char) (ht : R.Nonempty ∨ t = [])
    (Rs : List SourceRange) (hRs : ∀ S ∈ Rs, ¬ R.Overlaps S) (RB : RewriteBuffer) :
    captured (RB.ReplaceText R t) Rs = captured RB Rs := by
  induction Rs generalizing RB with
  | nil => rfl
  | cons S Rs ih =>
    have hS := hRs S (List.mem_cons_self S Rs)
    simp only [captured]
    rw [getSourceText_ReplaceText RB R S t hS ht,
      ← ReplaceText_removeSourceText_comm RB R S t hS ht]
    rw [ih (fun S2 h2 => hRs S2 (List.mem_cons_of_mem S h2)) _]

theorem captured_safe (RB : RewriteBuffer) (R : SourceRange) :
    R.Nonempty ∨ RB.getSourceText R = [] := by
  by_cases h : R.Nonempty
  · exact Or.inl h
  · exact Or.inr (getSourceText_of_not_nonempty RB R h)

/-- Rolling back a batch of removals whose ranges pairwise share no byte
restores the rewritten text. -/
theorem text_revertLoop_removeAll (Rs : List SourceRange)
    (hRs : Rs.Pairwise (fun R S => ¬ R.Overlaps S)) (RB : RewriteBuffer) :
    (revertLoop Rs (captured RB Rs) (removeAll RB Rs)).text = RB.text := by
  induction Rs generalizing RB with
  | nil => rfl
  | cons R Rs ih =>
    rw [List.pairwise_cons] at hRs
    have ht := captured_safe RB R
    simp only [captured, removeAll, revertLoop]
    rw [← removeAll_ReplaceText R _ ht Rs hRs.1,
      ← captured_ReplaceText R (RB.getSourceText R) ht Rs hRs.1 (RB.removeSourceText R)]
    rw [ih hRs.2, text_ReplaceText_removeSourceText]

theorem GlobalReduction.removeLoop_eq (Src : List Char) (Ds : List DDElement)
    (RB : RewriteBuffer) (Ranges : List SourceRange) (Reverts : List (List Char)) :
    GlobalReduction.removeLoop Src Ds RB Ranges Reverts =
      (removeAll RB (Ds.map (GlobalReduction.rangeOf Src)),
        Ranges ++ Ds.map (GlobalReduction.rangeOf Src),
        Reverts ++ captured RB (Ds.map (GlobalReduction.rangeOf Src))) := by
  induction Ds generalizing RB Ranges Reverts with
  | nil => simp [GlobalReduction.removeLoop, removeAll, captured]
  | cons D Ds ih =>
    simp only [GlobalReduction.removeLoop, List.map_cons, removeAll, captured]
    rw [ih]
    simp

/-- Cell transformer of the removal of a whole list of ranges. -/
theorem removeAll_eq_mapLoc (Rs : List SourceRange) (RB : RewriteBuffer) :
    removeAll RB Rs =
      mapLoc (fun l c => if Rs.any (fun R => decide (R.covers l)) then [] else c) 1 RB := by
  induction Rs generalizing RB with
  | nil =>
    simp only [removeAll, List.any_nil]
    exact (mapLoc_id _ 1 RB (fun _ _ _ => by simp)).symm
  | cons R Rs ih =>
    simp only [removeAll]
    rw [ih, RewriteBuffer.removeSourceText, mapLoc_mapLoc]
    apply mapLoc_congr
    intro k _ c
    by_cases hc : R.covers k <;> simp [RewriteBuffer.removeCell, hc]

theorem flatten_mapLoc_ofSource (Rs : List SourceRange) (l : Nat) (Src : List Char) :
    (mapLoc (fun l c => if Rs.any (fun R => decide (R.covers l)) then [] else c) l
      (Src.map (fun c => [c]) ++ [[]])).flatten = textWithout Rs l Src := by
  induction Src generalizing l with
  | nil => simp [mapLoc, textWithout]
  | cons c cs ih =>
    rw [List.map_cons, List.cons_append]
    simp only [mapLoc, List.flatten_cons, textWithout]
    rw [ih]
    split_ifs <;> simp

theorem GlobalReduction.test_fst (oracle : Oracle) (G : GlobalReduction)
    (Ds : List DDElement) :
    (GlobalReduction.test oracle G Ds).1 =
      oracle (removeAll G.TheRewriter (Ds.map (GlobalReduction.rangeOf G.Source))).text := by
  simp only [GlobalReduction.test, GlobalReduction.removeLoop_eq, GlobalReduction.callOracle,
    Transformation.callOracle, Transformation.overwriteChangedFiles]
  split_ifs with h <;> simp_all

theorem GlobalReduction.test_rewriter (oracle : Oracle) (G : GlobalReduction)
    (Ds : List DDElement) :
    (GlobalReduction.test oracle G Ds).2.TheRewriter =
      if (GlobalReduction.test oracle G Ds).1 then
        removeAll G.TheRewriter (Ds.map (GlobalReduction.rangeOf G.Source))
      else
        revertLoop (Ds.map (GlobalReduction.rangeOf G.Source))
          (captured G.TheRewriter (Ds.map (GlobalReduction.rangeOf G.Source)))
          (removeAll G.TheRewriter (Ds.map (GlobalReduction.rangeOf G.Source))) := by
  simp only [GlobalReduction.test, GlobalReduction.removeLoop_eq, GlobalReduction.callOracle,
    Transformation.callOracle, Transformation.overwriteChangedFiles]
  split_ifs with h <;> simp_all

/-! ## GlobalReduction::test -/

/-- Whenever `test` returns false over ranges that pairwise share no byte, the
rewritten text is the text before the call. -/
theorem GlobalReduction.test_rollback (oracle : Oracle) (G : GlobalReduction)
    (Ds : List DDElement)
    (hdisj : (Ds.map (GlobalReduction.rangeOf G.Source)).Pairwise
      (fun R S => ¬ R.Overlaps S))
    (hfalse : (GlobalReduction.test oracle G Ds).1 = false) :
    (GlobalReduction.test oracle G Ds).2.TheRewriter.text = G.TheRewriter.text := by
  rw [GlobalReduction.test_rewriter, hfalse]
  simp only [Bool.false_eq_true, if_false]
  exact text_revertLoop_removeAll _ hdisj _

/-- C1 (as amended): for every state of the rewriter, every list of elements whose
deletion ranges pairwise share no byte (ranges at the first or the last byte of
the file included) and every oracle that returns false, `GlobalReduction::test`
returns false and the text held by the rewriter afterwards is byte-identical to
the text before the call. -/
theorem C1_test_rejection_restores_disjoint (oracle : Oracle) (G : GlobalReduction)
    (ToBeRemoved : List DDElement)
    (hreject : ∀ t, oracle t = false)
    (hdisj : (ToBeRemoved.map (GlobalReduction.rangeOf G.Source)).Pairwise
      (fun R S => ¬ R.Overlaps S)) :
    (GlobalReduction.test oracle G ToBeRemoved).1 = false ∧
      (GlobalReduction.test oracle G ToBeRemoved).2.TheRewriter.text = G.TheRewriter.text := by
  have hfalse : (GlobalReduction.test oracle G ToBeRemoved).1 = false := by
    rw [GlobalReduction.test_fst]
    exact hreject _
  exact ⟨hfalse, GlobalReduction.test_rollback oracle G ToBeRemoved hdisj hfalse⟩

/-- Witness of C1 (as amended): `int a,b;` and the definition of `f`, the first
range starting at the first byte and the second ending at the last byte. -/
theorem C1_test_rejection_restores_disjoint_witness :
    (∀ t, Examples.rejectAll t = false) ∧
    ([Examples.varA, Examples.funF].map
      (GlobalReduction.rangeOf (GlobalReduction.start Examples.sharedSrc).Source)).Pairwise
        (fun R S => ¬ R.Overlaps S) ∧
    (GlobalReduction.test Examples.rejectAll (GlobalReduction.start Examples.sharedSrc)
      [Examples.varA, Examples.funF]).1 = false ∧
    (GlobalReduction.test Examples.rejectAll (GlobalReduction.start Examples.sharedSrc)
      [Examples.varA, Examples.funF]).2.TheRewriter.text
      = (GlobalReduction.start Examples.sharedSrc).TheRewriter.text :=
  ⟨fun _ => rfl, by decide,
    C1_test_rejection_restores_disjoint Examples.rejectAll
      (GlobalReduction.start Examples.sharedSrc) [Examples.varA, Examples.funF]
      (fun _ => rfl) (by decide)⟩

/-- C1 (as stated) fails: on `int a,b;void f(){static int c;}` with the elements
`a`, `b`, `f` and the static local `c`, whose ranges overlap, a rejected `test`
returns false and leaves `void f(){static int c;}`, not the text before the call. -/
theorem C1_counterexample :
    (GlobalReduction.test Examples.rejectAll (GlobalReduction.start Examples.sharedSrc)
      [Examples.varA, Examples.varB, Examples.funF, Examples.varC]).1 = false ∧
    (GlobalReduction.test Examples.rejectAll (GlobalReduction.start Examples.sharedSrc)
      [Examples.varA, Examples.varB, Examples.funF, Examples.varC]).2.TheRewriter.text
      = "void f()\x7bstatic int c;\x7d".toList ∧
    (GlobalReduction.test Examples.rejectAll (GlobalReduction.start Examples.sharedSrc)
      [Examples.varA, Examples.varB, Examples.funF, Examples.varC]).2.TheRewriter.text
      ≠ (GlobalReduction.start Examples.sharedSrc).TheRewriter.text := by
  decide

/-- C2: on a fresh rewriter over the source text, `GlobalReduction::test` returns
exactly the verdict of the oracle on the flushed text, and when that verdict is
true the resulting text is the source text without the bytes of the listed
ranges, every other byte kept in its original order. Disjointness of the ranges
is not needed for this. -/
theorem C2_test_commit (oracle : Oracle) (G : GlobalReduction) (ToBeRemoved : List DDElement)
    (hfresh : G.TheRewriter = RewriteBuffer.ofSource G.Source) :
    (GlobalReduction.test oracle G ToBeRemoved).1 =
        oracle (textWithout (ToBeRemoved.map (GlobalReduction.rangeOf G.Source)) 1 G.Source) ∧
      ((GlobalReduction.test oracle G ToBeRemoved).1 = true →
        (GlobalReduction.test oracle G ToBeRemoved).2.TheRewriter.text =
          textWithout (ToBeRemoved.map (GlobalReduction.rangeOf G.Source)) 1 G.Source) := by
  have htext : (removeAll G.TheRewriter (ToBeRemoved.map (GlobalReduction.rangeOf G.Source))).text
      = textWithout (ToBeRemoved.map (GlobalReduction.rangeOf G.Source)) 1 G.Source := by
    rw [removeAll_eq_mapLoc, hfresh]
    exact flatten_mapLoc_ofSource _ 1 G.Source
  refine ⟨by rw [GlobalReduction.test_fst, htext], fun htrue => ?_⟩
  rw [GlobalReduction.test_rewriter, htrue]
  simpa using htext

/-- Witness of C2: removing `int a,b;` and the definition of `f` under an
accepting oracle. -/
theorem C2_test_commit_witness :
    (GlobalReduction.start Examples.sharedSrc).TheRewriter
      = RewriteBuffer.ofSource (GlobalReduction.start Examples.sharedSrc).Source ∧
    (GlobalReduction.test Examples.acceptAll (GlobalReduction.start Examples.sharedSrc)
        [Examples.varA, Examples.funF]).1 =
      Examples.acceptAll (textWithout ([Examples.varA, Examples.funF].map
        (GlobalReduction.rangeOf (GlobalReduction.start Examples.sharedSrc).Source)) 1
        (GlobalReduction.start Examples.sharedSrc).Source) ∧
    ((GlobalReduction.test Examples.acceptAll (GlobalReduction.start Examples.sharedSrc)
        [Examples.varA, Examples.funF]).1 = true →
      (GlobalReduction.test Examples.acceptAll (GlobalReduction.start Examples.sharedSrc)
        [Examples.varA, Examples.funF]).2.TheRewriter.text =
        textWithout ([Examples.varA, Examples.funF].map
          (GlobalReduction.rangeOf (GlobalReduction.start Examples.sharedSrc).Source)) 1
          (GlobalReduction.start Examples.sharedSrc).Source) :=
  ⟨rfl, C2_test_commit Examples.acceptAll (GlobalReduction.start Examples.sharedSrc)
    [Examples.varA, Examples.funF] rfl⟩

/-! ## GlobalReduction::refineChunks -/

/-- Subscripting the table leaves every use count as it was. -/
theorem UseMap.uses_index (M : UseMap) (D E : Decl) : (M.index D).2.uses E = M.uses E := by
  unfold UseMap.index UseMap.uses
  cases h : M D with
  | some Uses => rfl
  | none =>
    by_cases hE : E = D
    · subst hE
      simp [h]
    · simp [Function.update, hE]

theorem UseMap.index_fst_length (M : UseMap) (D : Decl) : (M.index D).1.length = M.uses D := by
  unfold UseMap.index UseMap.uses
  cases h : M D <;> simp

theorem GlobalReduction.allOfUnused_spec (Chunk : List DDElement) (M : UseMap) :
    (GlobalReduction.allOfUnused Chunk M).1 = Chunk.all (fun D => M.uses D == 0) ∧
      ∀ E, (GlobalReduction.allOfUnused Chunk M).2.uses E = M.uses E := by
  induction Chunk generalizing M with
  | nil => simp [GlobalReduction.allOfUnused]
  | cons D rest ih =>
    simp only [GlobalReduction.allOfUnused, UseMap.index_fst_length, List.all_cons]
    by_cases h : M.uses D = 0
    · have ih2 := ih (M.index D).2
      simp only [h, beq_self_eq_true, if_true, Bool.true_and]
      refine ⟨?_, fun E => by rw [ih2.2 E, UseMap.uses_index]⟩
      rw [ih2.1]
      congr 1
      funext E
      rw [UseMap.uses_index]
    · have hb : (M.uses D == 0) = false := by simpa using h
      simp only [hb, Bool.false_eq_true, if_false, Bool.false_and, true_and]
      exact fun E => UseMap.uses_index M D E

theorem all_unused_congr (M N : UseMap) (h : ∀ E, N.uses E = M.uses E) (Chunk : List DDElement) :
    Chunk.all (fun D => N.uses D == 0) = Chunk.all (fun D => M.uses D == 0) := by
  congr 1
  funext E
  rw [h E]

theorem filter_unused_congr (M N : UseMap) (h : ∀ E, N.uses E = M.uses E)
    (Chunks : List DDElementVector) :
    Chunks.filter (fun Chunk => Chunk.all (fun D => N.uses D == 0)) =
      Chunks.filter (fun Chunk => Chunk.all (fun D => M.uses D == 0)) := by
  congr 1
  funext C
  exact all_unused_congr M N h C

theorem GlobalReduction.refineLoop_spec (Chunks : List DDElementVector) (M : UseMap)
    (result : List DDElementVector) :
    (GlobalReduction.refineLoop Chunks M result).1 =
        result ++ Chunks.filter (fun Chunk => Chunk.all (fun D => M.uses D == 0)) ∧
      ∀ E, (GlobalReduction.refineLoop Chunks M result).2.uses E = M.uses E := by
  induction Chunks generalizing M result with
  | nil => simp [GlobalReduction.refineLoop]
  | cons Chunk rest ih =>
    have hspec := GlobalReduction.allOfUnused_spec Chunk M
    have hfilter := filter_unused_congr M (GlobalReduction.allOfUnused Chunk M).2 hspec.2 rest
    simp only [GlobalReduction.refineLoop]
    cases hb : (GlobalReduction.allOfUnused Chunk M).1 with
    | true =>
      have ih2 := ih (GlobalReduction.allOfUnused Chunk M).2 (result ++ [Chunk])
      simp only [if_true]
      refine ⟨?_, fun E => by rw [ih2.2 E, hspec.2 E]⟩
      rw [ih2.1, hfilter, List.filter_cons, ← hspec.1, hb]
      simp
    | false =>
      have ih2 := ih (GlobalReduction.allOfUnused Chunk M).2 result
      simp only [Bool.false_eq_true, if_false]
      refine ⟨?_, fun E => by rw [ih2.2 E, hspec.2 E]⟩
      rw [ih2.1, hfilter, List.filter_cons, ← hspec.1, hb]
      simp

theorem GlobalReduction.refineChunks_eq_filter (G : GlobalReduction) (Chunks : List DDElementVector) :
    (G.refineChunks Chunks).1 =
      Chunks.filter (fun Chunk => Chunk.all (fun D => G.UseInfo.uses D == 0)) := by
  simp [GlobalReduction.refineChunks, (GlobalReduction.refineLoop_spec Chunks G.UseInfo []).1]

/-- C3: `GlobalReduction::refineChunks` returns exactly the chunks of the input
in which every element has zero recorded uses, in their original order and
unchanged; so no returned chunk holds a declaration with a use count above
zero, and every chunk whose elements all have zero uses is returned. -/
theorem C3_refineChunks_filter (G : GlobalReduction) (Chunks : List DDElementVector) :
    (G.refineChunks Chunks).1 =
        Chunks.filter (fun Chunk => Chunk.all (fun D => G.UseInfo.uses D == 0)) ∧
      (∀ Chunk ∈ (G.refineChunks Chunks).1, ∀ D ∈ Chunk, ¬ 0 < G.UseInfo.uses D) ∧
      (∀ Chunk ∈ Chunks, (∀ D ∈ Chunk, G.UseInfo.uses D = 0) →
        Chunk ∈ (G.refineChunks Chunks).1) := by
  have heq : (G.refineChunks Chunks).1 =
      Chunks.filter (fun Chunk => Chunk.all (fun D => G.UseInfo.uses D == 0)) := by
    simp [GlobalReduction.refineChunks, (GlobalReduction.refineLoop_spec Chunks G.UseInfo []).1]
  refine ⟨heq, ?_, ?_⟩
  · intro Chunk hmem D hD
    rw [heq, List.mem_filter, List.all_eq_true] at hmem
    have := hmem.2 D hD
    simp at this
    omega
  · intro Chunk hmem hall
    rw [heq, List.mem_filter, List.all_eq_true]
    exact ⟨hmem, fun D hD => by simp [hall D hD]⟩

/-! ## GlobalElementCollectionVisitor -/

/-- C4 (code evaluated at the failing input): the call `f()` resolves to the
prototype of `f`; after `VisitDeclRefExpr` the use stands under the prototype
and the definition of `f` still has no recorded use. -/
theorem C4_use_recorded_under_prototype :
    Examples.protoF.isFunctionDecl = true ∧
    Examples.protoF.isThisDeclarationADefinition = false ∧
    Examples.defF.isThisDeclarationADefinition = true ∧
    (Examples.emptyG.VisitDeclRefExpr Examples.callF).UseInfo.uses Examples.protoF = 1 ∧
    (Examples.emptyG.VisitDeclRefExpr Examples.callF).UseInfo.uses Examples.defF = 0 := by
  decide

theorem UseMap.uses_set (M : UseMap) (D E : Decl) (Uses : List DeclRefExpr) :
    (M.set D Uses).uses E = if E = D then Uses.length else M.uses E := by
  unfold UseMap.set UseMap.uses
  by_cases h : E = D
  · subst h
    simp
  · simp [Function.update, h]

/-- C5 (as amended): a reference expression that names a function raises the
recorded use count of the declaration it names by one and changes no other
count; a reference that names any other kind of declaration (a global
variable, an enumerator) changes no use count. -/
theorem C5_only_function_references_recorded (G : GlobalReduction) (DRE : DeclRefExpr)
    (E : Decl) :
    (G.VisitDeclRefExpr DRE).UseInfo.uses E =
      G.UseInfo.uses E + (if DRE.decl.isFunctionDecl = true ∧ E = DRE.decl then 1 else 0) := by
  unfold GlobalReduction.VisitDeclRefExpr
  by_cases hF : DRE.decl.isFunctionDecl = true
  · have key : ((G.UseInfo.index DRE.decl).2.set DRE.decl
          ((G.UseInfo.index DRE.decl).1 ++ [DRE])).uses E =
        G.UseInfo.uses E + (if E = DRE.decl then 1 else 0) := by
      rw [UseMap.uses_set]
      by_cases hE : E = DRE.decl
      · subst hE
        simp [UseMap.index_fst_length]
      · simp [hE, UseMap.uses_index]
    by_cases hD : DRE.decl.isThisDeclarationADefinition = true
    · simpa [hF, hD] using key
    · simpa [hF, hD] using key
  · simp [hF]

/-- C5 (as stated) fails: the reference to the global variable `v` in `return v;`
raises no use count, and `refineChunks` keeps the chunk that holds `v`. -/
theorem C5_counterexample :
    Examples.refV.decl = Examples.globalV ∧
    (∀ E, (Examples.emptyG.VisitDeclRefExpr Examples.refV).UseInfo.uses E
      = Examples.emptyG.UseInfo.uses E) ∧
    (Examples.emptyG.VisitDeclRefExpr Examples.refV).UseInfo.uses Examples.globalV = 0 ∧
    ((Examples.emptyG.VisitDeclRefExpr Examples.refV).refineChunks [[Examples.globalV]]).1
      = [[Examples.globalV]] :=
  ⟨rfl, fun _ => rfl, by decide, by decide⟩

/-! ## Deletion ranges of separate statements -/

theorem scanUntil_le_of_getElem? (Symbol : Char) (cs : List Char) (l k : Nat)
    (h : cs[k]? = some Symbol) : ∃ q, scanUntil Symbol cs l = some q ∧ q ≤ l + k := by
  induction cs generalizing l k with
  | nil => simp at h
  | cons c cs ih =>
    unfold scanUntil
    by_cases hc : c = Symbol
    · exact ⟨l, by simp [hc], by omega⟩
    · cases k with
      | zero =>
        simp at h
        exact absurd h hc
      | succ k =>
        simp only [List.getElem?_cons_succ] at h
        obtain ⟨q, hq, hle⟩ := ih (l + 1) k h
        exact ⟨q, by simp [hc, hq], by omega⟩

/-- The end that `test` computes stays at or before a location `p + 1` when the
declaration is a function definition or an empty declaration that ends at or
before `p`, or when a `;` stands at `p`, at or after the end of the declaration. -/
theorem GlobalReduction.rangeOf_end_le (Src : List Char) (D : DDElement) (p : Nat)
    (hp : D.range.E.ID ≤ p)
    (h : (D.isFunctionDecl = true ∧ D.isThisDeclarationADefinition = true) ∨
      D.kind = DeclKind.Empty ∨ Src[p - 1]? = some ';') :
    (GlobalReduction.rangeOf Src D).E.ID ≤ p + 1 := by
  have hplus : ∀ L : SourceLocation, (L.getLocWithOffset 1).ID = L.ID + 1 := by
    intro L
    unfold SourceLocation.getLocWithOffset
    show ((L.ID : Int) + 1).toNat = L.ID + 1
    omega
  unfold GlobalReduction.rangeOf
  by_cases hF : (D.isFunctionDecl && D.isThisDeclarationADefinition) = true
  · rw [if_pos hF, hplus]
    omega
  · rw [if_neg hF]
    by_cases hE : (D.kind == DeclKind.Empty) = true
    · rw [if_pos hE, hplus]
      omega
    · rw [if_neg hE, hplus]
      have hsemi : Src[p - 1]? = some ';' := by
        rcases h with h | h | h
        · exact absurd (by simp [h.1, h.2]) hF
        · exact absurd (by simp [h]) hE
        · exact h
      unfold getEndLocationUntil GetEndLocationUntil
      by_cases h0 : D.range.E.ID = 0
      · rw [if_pos h0]
        show 0 + 1 ≤ p + 1
        omega
      · rw [if_neg h0]
        have hk : (Src.drop (D.range.E.ID - 1))[p - D.range.E.ID]? = some ';' := by
          rw [List.getElem?_drop]
          have : D.range.E.ID - 1 + (p - D.range.E.ID) = p - 1 := by omega
          rw [this]
          exact hsemi
        obtain ⟨q, hq, hle⟩ := scanUntil_le_of_getElem? ';' _ D.range.E.ID _ hk
        rw [hq]
        show q + 1 ≤ p + 1
        omega

/-- C6 (as amended): the deletion ranges that `GlobalReduction::test` computes for
two candidate elements share no byte whenever the second declaration begins
after the end of the first and the first is a function definition or an empty
declaration or a `;` stands between the end of the first and the begin of the
second. Nothing is claimed for a declaration written inside another or for
declarations that share a statement. -/
theorem C6_ranges_of_separate_statements_disjoint (Src : List Char) (D1 D2 : DDElement)
    (p : Nat) (hp1 : D1.range.E.ID ≤ p) (hp2 : p < D2.range.B.ID)
    (h : (D1.isFunctionDecl = true ∧ D1.isThisDeclarationADefinition = true) ∨
      D1.kind = DeclKind.Empty ∨ Src[p - 1]? = some ';') :
    ¬ (GlobalReduction.rangeOf Src D1).Overlaps (GlobalReduction.rangeOf Src D2) ∧
      ¬ (GlobalReduction.rangeOf Src D2).Overlaps (GlobalReduction.rangeOf Src D1) := by
  have hle := GlobalReduction.rangeOf_end_le Src D1 p hp1 h
  have hB2 : (GlobalReduction.rangeOf Src D2).B.ID = D2.range.B.ID := rfl
  constructor <;> (unfold SourceRange.Overlaps; omega)

/-- Witness of C6 (as amended): `int a,b;` ends with the `;` at location 8 and
the definition of `f` begins at location 9. -/
theorem C6_ranges_of_separate_statements_disjoint_witness :
    Examples.varA.range.E.ID ≤ 8 ∧ 8 < Examples.funF.range.B.ID ∧
    Examples.sharedSrc[8 - 1]? = some ';' ∧
    ¬ (GlobalReduction.rangeOf Examples.sharedSrc Examples.varA).Overlaps
        (GlobalReduction.rangeOf Examples.sharedSrc Examples.funF) ∧
    ¬ (GlobalReduction.rangeOf Examples.sharedSrc Examples.funF).Overlaps
        (GlobalReduction.rangeOf Examples.sharedSrc Examples.varA) :=
  ⟨by decide, by decide, by decide,
    C6_ranges_of_separate_statements_disjoint Examples.sharedSrc Examples.varA Examples.funF 8
      (by decide) (by decide) (Or.inr (Or.inr (by decide)))⟩

/-- C6 (as stated) fails: in `int a,b;void f(){static int c;}` the candidate set is
`a`, `b`, `f`, `c`; the two declarators of one statement get the same range
`[1, 9)`, and the range `[18, 31)` of the static local lies inside the range
`[9, 32)` of the function that holds it. -/
theorem C6_counterexample :
    ((GlobalReduction.start Examples.sharedSrc).collect Examples.sharedTU).Decls
      = [Examples.varA, Examples.varB, Examples.funF, Examples.varC] ∧
    Examples.varA ≠ Examples.varB ∧
    GlobalReduction.rangeOf Examples.sharedSrc Examples.varA = ⟨⟨1⟩, ⟨9⟩⟩ ∧
    GlobalReduction.rangeOf Examples.sharedSrc Examples.varB = ⟨⟨1⟩, ⟨9⟩⟩ ∧
    (GlobalReduction.rangeOf Examples.sharedSrc Examples.varA).Overlaps
      (GlobalReduction.rangeOf Examples.sharedSrc Examples.varB) ∧
    Examples.funF ≠ Examples.varC ∧
    GlobalReduction.rangeOf Examples.sharedSrc Examples.funF = ⟨⟨9⟩, ⟨32⟩⟩ ∧
    GlobalReduction.rangeOf Examples.sharedSrc Examples.varC = ⟨⟨18⟩, ⟨31⟩⟩ ∧
    (GlobalReduction.rangeOf Examples.sharedSrc Examples.funF).Overlaps
      (GlobalReduction.rangeOf Examples.sharedSrc Examples.varC) := by
  decide

/-! ## The candidate set -/

/-- What one visit appends to `Decls`. -/
theorem GlobalReduction.visit_Decls (G : GlobalReduction) (V : Visited) :
    (G.visit V).Decls = G.Decls ++ (visitedDecls [V]).filter isCollected := by
  cases V with
  | declRefExpr DRE =>
    simp only [GlobalReduction.visit, GlobalReduction.VisitDeclRefExpr, visitedDecls]
    split_ifs <;> simp
  | decl D =>
    simp only [GlobalReduction.visit, visitedDecls, List.filterMap_cons, List.filterMap_nil,
      List.filter_cons, List.filter_nil, isCollected]
    cases hk : D.kind <;>
      simp only [GlobalReduction.VisitFunctionDecl, GlobalReduction.VisitVarDecl,
        GlobalReduction.VisitRecordDecl, GlobalReduction.VisitTypedefDecl,
        GlobalReduction.VisitEnumDecl, GlobalReduction.VisitEmptyDecl] <;>
      split_ifs <;> simp_all

theorem visitedDecls_append (Vs Ws : List Visited) :
    visitedDecls (Vs ++ Ws) = visitedDecls Vs ++ visitedDecls Ws := by
  simp [visitedDecls, List.filterMap_append]

theorem GlobalReduction.foldl_visit_Decls (Vs : List Visited) (G : GlobalReduction) :
    (Vs.foldl GlobalReduction.visit G).Decls = G.Decls ++ (visitedDecls Vs).filter isCollected := by
  induction Vs generalizing G with
  | nil => simp [visitedDecls]
  | cons V Vs ih =>
    rw [List.foldl_cons, ih, GlobalReduction.visit_Decls]
    have : V :: Vs = [V] ++ Vs := rfl
    rw [this, visitedDecls_append, List.filter_append, List.append_assoc]

theorem preorderList_cons (N : ASTNode) (Ns : List ASTNode) :
    ASTNode.preorderList (N :: Ns) = N.preorder ++ ASTNode.preorderList Ns := by
  simp [ASTNode.preorderList]

theorem preorderList_append (Ms Ns : List ASTNode) :
    ASTNode.preorderList (Ms ++ Ns) = ASTNode.preorderList Ms ++ ASTNode.preorderList Ns := by
  induction Ms with
  | nil => simp [ASTNode.preorderList]
  | cons M Ms ih => rw [List.cons_append, preorderList_cons, preorderList_cons, ih,
      List.append_assoc]

theorem GlobalReduction.HandleTopLevelDecl_Decls (D : List ASTNode) (G : GlobalReduction) :
    (G.HandleTopLevelDecl D).Decls =
      G.Decls ++ (visitedDecls (ASTNode.preorderList D)).filter isCollected := by
  unfold GlobalReduction.HandleTopLevelDecl
  induction D generalizing G with
  | nil => simp [ASTNode.preorderList, visitedDecls]
  | cons N Ns ih =>
    rw [List.foldl_cons, ih, GlobalReduction.TraverseDecl, GlobalReduction.foldl_visit_Decls,
      preorderList_cons, visitedDecls_append, List.filter_append, List.append_assoc]

theorem GlobalReduction.collect_Decls (TU : List (List ASTNode)) (G : GlobalReduction) :
    (G.collect TU).Decls = G.Decls ++ (visitedDecls (visitedNodes TU)).filter isCollected := by
  unfold GlobalReduction.collect visitedNodes
  induction TU generalizing G with
  | nil => simp [ASTNode.preorderList, visitedDecls]
  | cons D TU ih =>
    rw [List.foldl_cons, ih, GlobalReduction.HandleTopLevelDecl_Decls, List.flatten_cons,
      preorderList_append, visitedDecls_append, List.filter_append, List.append_assoc]

/-- C7 (as amended): the elements that `HandleTranslationUnit` passes to the search
are, in the order of their collection, the declarations that the traversal
visits anywhere in the translation unit (top level or nested) and that are a
function other than `main`, a variable with global storage, a record, a
typedef, an enum or an empty declaration; none of them is `main`. -/
theorem C7_candidate_set (Src : List Char) (TU : List (List ASTNode)) :
    ((GlobalReduction.start Src).collect TU).HandleTranslationUnitElements =
        (visitedDecls (visitedNodes TU)).filter isCollected ∧
      ∀ D ∈ ((GlobalReduction.start Src).collect TU).HandleTranslationUnitElements,
        ¬ (D.kind = DeclKind.Function ∧ D.isMain = true) := by
  have heq : ((GlobalReduction.start Src).collect TU).HandleTranslationUnitElements =
      (visitedDecls (visitedNodes TU)).filter isCollected := by
    unfold GlobalReduction.HandleTranslationUnitElements
    rw [GlobalReduction.collect_Decls]
    have hid : (GlobalReduction.CastElement : Decl → DDElement) = id := rfl
    simp [GlobalReduction.start, hid]
  refine ⟨heq, ?_⟩
  intro D hD hmain
  rw [heq, List.mem_filter] at hD
  have := hD.2
  simp [isCollected, hmain.1, hmain.2] at this

/-- C7 (as stated) fails: in `int a,b;void f(){static int c;}` the static local `c`
is passed to the search although it is declared inside the body of `f` and is
no direct child of the translation unit. -/
theorem C7_counterexample :
    Examples.varC ∈
      ((GlobalReduction.start Examples.sharedSrc).collect
        Examples.sharedTU).HandleTranslationUnitElements ∧
    topLevelDecls Examples.sharedTU = [Examples.varA, Examples.varB, Examples.funF] ∧
    Examples.varC ∉ topLevelDecls Examples.sharedTU := by
  decide

/-! ## ClangDeadcodeElimination::removeUnusedElements -/

theorem not_nonempty_same (L : SourceLocation) : ¬ (SourceRange.mk L L).Nonempty := by
  unfold SourceRange.Nonempty
  simp

/-- The loop records its ranges and removes no text: each recorded range runs
from a location to that same location. -/
theorem ClangDeadcodeElimination.removeUnusedLoop_eq (C : ClangDeadcodeElimination)
    (Locs : List SourceLocation) (RB : RewriteBuffer) (Ranges : List SourceRange)
    (Reverts : List (List Char)) :
    ClangDeadcodeElimination.removeLoop C Locs RB Ranges Reverts =
      (RB, Ranges ++ recordedRanges C Locs,
        Reverts ++ (recordedRanges C Locs).map (fun _ => [])) := by
  induction Locs generalizing Ranges Reverts with
  | nil => simp [ClangDeadcodeElimination.removeLoop, recordedRanges]
  | cons Loc rest ih =>
    unfold ClangDeadcodeElimination.removeLoop
    by_cases hinv : (C.getRemoveRange Loc).isInvalid = true
    · simp only [hinv, if_true]
      rw [ih]
      simp [recordedRanges, hinv]
    · simp only [hinv, if_false, Bool.false_eq_true]
      rw [removeSourceText_of_not_nonempty RB _ (not_nonempty_same _),
        getSourceText_of_not_nonempty RB _ (not_nonempty_same _), ih]
      simp [recordedRanges, hinv]

theorem recordedRanges_not_nonempty (C : ClangDeadcodeElimination) (Locs : List SourceLocation) :
    ∀ R ∈ recordedRanges C Locs, ¬ R.Nonempty := by
  intro R hR
  unfold recordedRanges at hR
  rw [List.mem_filterMap] at hR
  obtain ⟨Loc, _, hLoc⟩ := hR
  split_ifs at hLoc
  simp only [Option.some.injEq] at hLoc
  rw [← hLoc]
  exact not_nonempty_same _

theorem revertLoop_nil_of_not_nonempty (Rs : List SourceRange) (RB : RewriteBuffer)
    (h : ∀ R ∈ Rs, ¬ R.Nonempty) :
    revertLoop Rs (Rs.map (fun _ => [])) RB = RB := by
  induction Rs generalizing RB with
  | nil => rfl
  | cons R Rs ih =>
    simp only [List.map_cons, revertLoop]
    rw [ReplaceText_nil_of_not_nonempty RB R (h R (List.mem_cons_self R Rs))]
    exact ih RB (fun S hS => h S (List.mem_cons_of_mem R hS))

/-- The rewriter is left as it was, whatever the oracle answers. -/
theorem ClangDeadcodeElimination.removeUnusedElements_rewriter (oracle : Oracle)
    (C : ClangDeadcodeElimination) :
    (C.removeUnusedElements oracle).TheRewriter = C.TheRewriter := by
  unfold ClangDeadcodeElimination.removeUnusedElements
  simp only [ClangDeadcodeElimination.removeUnusedLoop_eq, List.nil_append]
  split_ifs
  · simp only [Transformation.overwriteChangedFiles, Transformation.callOracle]
    exact revertLoop_nil_of_not_nonempty _ _ (recordedRanges_not_nonempty C _)
  · rfl

/-- The oracle is run once, on the text as flushed after the whole loop. -/
theorem ClangDeadcodeElimination.removeUnusedElements_calls (oracle : Oracle)
    (C : ClangDeadcodeElimination) :
    (C.removeUnusedElements oracle).OracleCalls =
      C.OracleCalls ++
        [(ClangDeadcodeElimination.removeLoop C C.UnusedLocations C.TheRewriter [] []).1.text] := by
  unfold ClangDeadcodeElimination.removeUnusedElements
  simp only [Transformation.overwriteChangedFiles, Transformation.callOracle]
  split_ifs <;> rfl

/-- C8 (code evaluated at the failing input): for `int x = 5;`, flagged unused at
the name `x`, `getRemoveRange` resolves the statement from `int` to its `;`,
yet under an accepting oracle `removeUnusedElements` leaves the text as it
was; the statement is not removed. -/
theorem C8_constant_initializer_statement_not_removed :
    ClangDeadcodeElimination.isConstant Stmt.IntegerLiteral = true ∧
    Examples.constC.getRemoveRange ⟨14⟩ = ⟨⟨10⟩, ⟨19⟩⟩ ∧
    recordedRanges Examples.constC Examples.constC.UnusedLocations = [⟨⟨10⟩, ⟨10⟩⟩] ∧
    (Examples.constC.removeUnusedElements Examples.acceptAll).TheRewriter.text
      = Examples.constSrc ∧
    textWithout [⟨⟨10⟩, ⟨20⟩⟩] 1 Examples.constSrc = "void f()\x7b\x7d".toList ∧
    (Examples.constC.removeUnusedElements Examples.acceptAll).TheRewriter.text
      ≠ textWithout [⟨⟨10⟩, ⟨20⟩⟩] 1 Examples.constSrc := by
  decide

/-- C9: for a variable of `LocationMapping` whose initializer is not a constant,
flagged unused, the entry of the variable resolves no end, and
`removeUnusedElements` leaves the text of every range, so of the declaration
statement of the variable, and the whole rewritten text unchanged, whatever
the oracle answers and whatever else `LocationMapping` holds. -/
theorem C9_nonconstant_initializer_preserved (oracle : Oracle)
    (C : ClangDeadcodeElimination) (VD : Decl) (R : SourceRange) (Init : Stmt)
    (Loc : SourceLocation) (Statement : SourceRange)
    (hVar : VD.isVarDecl = true) (hInit : VD.init = some Init)
    (hNotConstant : ClangDeadcodeElimination.isConstant Init = false)
    (_hMap : (VD, R) ∈ C.LocationMapping) (_hFlag : Loc ∈ C.UnusedLocations) :
    ClangDeadcodeElimination.endOf C.Source VD = SourceLocation.invalid ∧
      (C.removeUnusedElements oracle).TheRewriter.getSourceText Statement
        = C.TheRewriter.getSourceText Statement ∧
      (C.removeUnusedElements oracle).TheRewriter.text = C.TheRewriter.text := by
  refine ⟨?_, ?_, ?_⟩
  · simp [ClangDeadcodeElimination.endOf, hVar, hInit, hNotConstant]
  · rw [ClangDeadcodeElimination.removeUnusedElements_rewriter]
  · rw [ClangDeadcodeElimination.removeUnusedElements_rewriter]

/-- Witness of C9: `int a = 1, x = foo();` with `x` flagged unused, under an
accepting oracle; the statement stands at locations 10 to 30. -/
theorem C9_nonconstant_initializer_preserved_witness :
    Examples.callX.isVarDecl = true ∧ Examples.callX.init = some Stmt.CallExpr ∧
    ClangDeadcodeElimination.isConstant Stmt.CallExpr = false ∧
    (Examples.callX, Examples.callX.range) ∈ Examples.callC.LocationMapping ∧
    (⟨21⟩ : SourceLocation) ∈ Examples.callC.UnusedLocations ∧
    (ClangDeadcodeElimination.endOf Examples.callC.Source Examples.callX
        = SourceLocation.invalid ∧
      (Examples.callC.removeUnusedElements Examples.acceptAll).TheRewriter.getSourceText
          ⟨⟨10⟩, ⟨31⟩⟩
        = Examples.callC.TheRewriter.getSourceText ⟨⟨10⟩, ⟨31⟩⟩ ∧
      (Examples.callC.removeUnusedElements Examples.acceptAll).TheRewriter.text
        = Examples.callC.TheRewriter.text) :=
  ⟨by decide, by decide, by decide, by decide, by decide,
    C9_nonconstant_initializer_preserved Examples.acceptAll Examples.callC Examples.callX
      Examples.callX.range Stmt.CallExpr ⟨21⟩ ⟨⟨10⟩, ⟨31⟩⟩
      (by decide) (by decide) (by decide) (by decide) (by decide)⟩

/-- The rewriter after the call: the buffer of the loop when the oracle accepts,
and that buffer with every recorded range put back when it rejects. -/
theorem ClangDeadcodeElimination.removeUnusedElements_batch (oracle : Oracle)
    (C : ClangDeadcodeElimination) :
    (C.removeUnusedElements oracle).TheRewriter =
      if oracle (ClangDeadcodeElimination.removeLoop C C.UnusedLocations
          C.TheRewriter [] []).1.text = true then
        (ClangDeadcodeElimination.removeLoop C C.UnusedLocations C.TheRewriter [] []).1
      else
        revertLoop
          (ClangDeadcodeElimination.removeLoop C C.UnusedLocations C.TheRewriter [] []).2.1
          (ClangDeadcodeElimination.removeLoop C C.UnusedLocations C.TheRewriter [] []).2.2
          (ClangDeadcodeElimination.removeLoop C C.UnusedLocations C.TheRewriter [] []).1 := by
  unfold ClangDeadcodeElimination.removeUnusedElements
  simp only [Transformation.overwriteChangedFiles, Transformation.callOracle]
  split_ifs <;> simp_all

/-- C10 (as amended): the flagged locations are validated as one batch. Whatever
the number of flagged locations whose range resolves, `removeUnusedElements`
runs the oracle exactly once per invocation, on the text flushed after the
deletion loop has run over all of them; when the oracle accepts the buffer of
the loop stays, and when it rejects every recorded range is put back. -/
theorem C10_one_oracle_call_per_batch (oracle : Oracle) (C : ClangDeadcodeElimination) :
    (C.removeUnusedElements oracle).OracleCalls =
        C.OracleCalls ++
          [(ClangDeadcodeElimination.removeLoop C C.UnusedLocations
            C.TheRewriter [] []).1.text] ∧
      (C.removeUnusedElements oracle).OracleCalls.length = C.OracleCalls.length + 1 ∧
      (C.removeUnusedElements oracle).TheRewriter =
        if oracle (ClangDeadcodeElimination.removeLoop C C.UnusedLocations
            C.TheRewriter [] []).1.text = true then
          (ClangDeadcodeElimination.removeLoop C C.UnusedLocations C.TheRewriter [] []).1
        else
          revertLoop
            (ClangDeadcodeElimination.removeLoop C C.UnusedLocations C.TheRewriter [] []).2.1
            (ClangDeadcodeElimination.removeLoop C C.UnusedLocations C.TheRewriter [] []).2.2
            (ClangDeadcodeElimination.removeLoop C C.UnusedLocations C.TheRewriter [] []).1 := by
  have h := ClangDeadcodeElimination.removeUnusedElements_calls oracle C
  exact ⟨h, by rw [h]; simp, ClangDeadcodeElimination.removeUnusedElements_batch oracle C⟩

/-- C10 (as stated) fails: in `void f(){int x;int y;}` both flagged locations
resolve, two ranges are recorded, and the oracle is run once, not twice,
whether it accepts or rejects. -/
theorem C10_counterexample :
    (Examples.twoC.getRemoveRange ⟨14⟩).isInvalid = false ∧
    (Examples.twoC.getRemoveRange ⟨20⟩).isInvalid = false ∧
    (recordedRanges Examples.twoC Examples.twoC.UnusedLocations).length = 2 ∧
    (Examples.twoC.removeUnusedElements Examples.acceptAll).OracleCalls.length = 1 ∧
    (Examples.twoC.removeUnusedElements Examples.rejectAll).OracleCalls.length = 1 := by
  decide


/-! ## ClangDeadcodeElimination::isConstant -/

/-- C15 (as amended): `isConstant(S)` is true exactly when `S`, under any number
of nested casts, is a string, integer, character, floating or imaginary literal
or a compound literal: a true answer comes from a literal or from a cast whose
operand is constant in turn. It is false for calls, name references and operators. -/
theorem C15_isConstant_unwraps_every_cast (S : Stmt) :
    ClangDeadcodeElimination.isConstant S = isLiteral (stripCasts S) ∧
      (ClangDeadcodeElimination.isConstant S = true → isLiteral S = true ∨
        ∃ operand, S = Stmt.CastExpr operand ∧
          ClangDeadcodeElimination.isConstant operand = true) ∧
      ClangDeadcodeElimination.isConstant Stmt.CallExpr = false ∧
      ClangDeadcodeElimination.isConstant Stmt.DeclRefExprNode = false ∧
      (∀ sub, ClangDeadcodeElimination.isConstant (Stmt.UnaryOperator sub) = false) ∧
      (∀ lhs rhs, ClangDeadcodeElimination.isConstant (Stmt.BinaryOperator lhs rhs) = false) := by
  refine ⟨?_, ?_, rfl, rfl, fun _ => rfl, fun _ _ => rfl⟩
  · induction S with
    | CastExpr operand ih => simpa [ClangDeadcodeElimination.isConstant, stripCasts] using ih
    | _ => simp [ClangDeadcodeElimination.isConstant, stripCasts, isLiteral]
  · intro h
    cases S with
    | CastExpr operand => exact Or.inr ⟨operand, rfl, by simpa [ClangDeadcodeElimination.isConstant] using h⟩
    | _ => first | exact Or.inl rfl | simp [ClangDeadcodeElimination.isConstant] at h

/-- C15 (as stated) fails: a cast of a cast of an integer literal, as in
`(long)(int)5`, is accepted by `isConstant`, beyond one level of unwrapping. -/
theorem C15_counterexample :
    ClangDeadcodeElimination.isConstant
        (Stmt.CastExpr (Stmt.CastExpr Stmt.IntegerLiteral)) = true ∧
      isConstantOneLevel (Stmt.CastExpr (Stmt.CastExpr Stmt.IntegerLiteral)) = false := by
  decide

/-! ## GlobalElementCollectionVisitor::findAndInsert -/

/-- C16: after `findAndInsert(D, R)` the use list of `D` is its previous list
(empty when `D` had no entry) followed by `R`, its use count has grown by
exactly one, and the entry of every other declaration is unchanged. -/
theorem C16_findAndInsert_appends (G : GlobalReduction) (D : Decl) (R : DeclRefExpr) :
    (G.findAndInsert D R).UseInfo D = some ((G.UseInfo D).getD [] ++ [R]) ∧
      (G.findAndInsert D R).UseInfo.uses D = G.UseInfo.uses D + 1 ∧
      ∀ E, E ≠ D → (G.findAndInsert D R).UseInfo E = G.UseInfo E := by
  unfold GlobalReduction.findAndInsert UseMap.uses
  cases h : G.UseInfo D with
  | some Uses =>
    refine ⟨by simp [UseMap.set], by simp [UseMap.set], fun E hE => ?_⟩
    simp [UseMap.set, Function.update, hE]
  | none =>
    refine ⟨by simp [UseMap.set], by simp [UseMap.set], fun E hE => ?_⟩
    simp [UseMap.set, Function.update, hE]


/-! ## ClangDeadcodeElimination::getRemoveRange -/

theorem getRemoveRangeLoop_eq_find (Src : List Char) (Loc : SourceLocation)
    (L : List (Decl × SourceRange)) :
    ClangDeadcodeElimination.getRemoveRangeLoop Src Loc L =
      ((L.find? (entryHolds Src Loc)).map (entryRange Src)).getD SourceRange.empty := by
  induction L with
  | nil => rfl
  | cons Entry rest ih =>
    unfold ClangDeadcodeElimination.getRemoveRangeLoop
    by_cases h : entryHolds Src Loc Entry = true
    · have h2 := h
      unfold entryHolds at h2
      simp [List.find?_cons, h, h2, entryRange]
    · have h2 := h
      unfold entryHolds at h2
      simp only [Bool.not_eq_true] at h h2
      simp only [h2, Bool.false_eq_true, if_false, List.find?_cons, h]
      exact ih

theorem SourceLocation.le_iff (A B : SourceLocation) : A.le B = true ↔ A.ID ≤ B.ID := by
  unfold SourceLocation.le
  cases A with
  | mk a =>
    cases B with
    | mk b =>
      simp only [Bool.or_eq_true, decide_eq_true_eq, beq_iff_eq, SourceLocation.mk.injEq]
      omega

theorem entryHolds_bounds (Src : List Char) (Loc : SourceLocation) (Entry : Decl × SourceRange)
    (h : entryHolds Src Loc Entry = true) :
    (entryRange Src Entry).B.ID ≤ Loc.ID ∧ Loc.ID ≤ (entryRange Src Entry).E.ID := by
  unfold entryHolds at h
  rw [Bool.and_eq_true, SourceLocation.le_iff, SourceLocation.le_iff] at h
  exact h

/-- When every entry that holds the location gives the same range, the order of
the entries does not matter. -/
theorem getRemoveRangeLoop_perm (Src : List Char) (Loc : SourceLocation)
    (L1 L2 : List (Decl × SourceRange)) (hperm : L2.Perm L1)
    (hagree : ∀ e1 ∈ L1, ∀ e2 ∈ L1, entryHolds Src Loc e1 = true →
      entryHolds Src Loc e2 = true → entryRange Src e1 = entryRange Src e2) :
    ClangDeadcodeElimination.getRemoveRangeLoop Src Loc L2 =
      ClangDeadcodeElimination.getRemoveRangeLoop Src Loc L1 := by
  rw [getRemoveRangeLoop_eq_find, getRemoveRangeLoop_eq_find]
  cases h1 : L1.find? (entryHolds Src Loc) with
  | none =>
    have hnone : L2.find? (entryHolds Src Loc) = none := by
      rw [List.find?_eq_none] at h1 ⊢
      exact fun e he => h1 e (hperm.mem_iff.mp he)
    rw [hnone]
  | some e1 =>
    have he1 := List.mem_of_find?_eq_some h1
    have hp1 := List.find?_some h1
    cases h2 : L2.find? (entryHolds Src Loc) with
    | none =>
      rw [List.find?_eq_none] at h2
      exact absurd hp1 (h2 e1 (hperm.mem_iff.mpr he1))
    | some e2 =>
      have he2 := hperm.mem_iff.mp (List.mem_of_find?_eq_some h2)
      have hp2 := List.find?_some h2
      simp only [Option.map_some', Option.getD_some]
      exact hagree e2 he2 e1 he1 hp2 hp1

/-- C18 (as amended): `getRemoveRange(Loc)` answers with the first entry of
`LocationMapping`, in iteration order, whose range from `Begin` to the computed
`End` holds `Loc`, or with the default-constructed range when no entry holds
`Loc`; an answer taken from an entry satisfies `Begin <= Loc <= End`; the `End`
of a label is one character before the begin of the labelled statement; and
the answer is the same for every iteration order as long as all entries that
hold `Loc` give one and the same range. -/
theorem C18_getRemoveRange_first_holding_entry (C : ClangDeadcodeElimination)
    (Loc : SourceLocation) :
    C.getRemoveRange Loc =
        ((C.LocationMapping.find? (entryHolds C.Source Loc)).map
          (entryRange C.Source)).getD SourceRange.empty ∧
      (∀ Entry, C.LocationMapping.find? (entryHolds C.Source Loc) = some Entry →
        (entryRange C.Source Entry).B.ID ≤ Loc.ID ∧
          Loc.ID ≤ (entryRange C.Source Entry).E.ID) ∧
      (∀ Entry : Decl × SourceRange, Entry.1.kind = DeclKind.Label →
        (entryRange C.Source Entry).E = Entry.1.subStmtBegin.getLocWithOffset (-1)) ∧
      (∀ L2 : List (Decl × SourceRange), L2.Perm C.LocationMapping →
        (∀ e1 ∈ C.LocationMapping, ∀ e2 ∈ C.LocationMapping,
          entryHolds C.Source Loc e1 = true → entryHolds C.Source Loc e2 = true →
            entryRange C.Source e1 = entryRange C.Source e2) →
        ClangDeadcodeElimination.getRemoveRangeLoop C.Source Loc L2 = C.getRemoveRange Loc) := by
  refine ⟨getRemoveRangeLoop_eq_find _ _ _, ?_, ?_, ?_⟩
  · intro Entry hfind
    exact entryHolds_bounds _ _ _ (List.find?_some hfind)
  · intro Entry hkind
    simp [entryRange, ClangDeadcodeElimination.endOf, Decl.isVarDecl, hkind]
  · intro L2 hperm hagree
    exact getRemoveRangeLoop_perm _ _ _ _ hperm hagree

/-- C18 (as stated) fails: in `void f(){int a[({int x;1;})];}` the flagged name
`x` at location 22 lies in the range of `a` and in the range of `x`; with the
entry of `a` first the answer is the range `(10, 29)` of `a`, not that of the
owner `x`, and with the entry of `x` first the answer is `(18, 23)`. -/
theorem C18_counterexample :
    ClangDeadcodeElimination.getRemoveRangeLoop Examples.nestSrc ⟨22⟩
        [(Examples.nestA, Examples.nestA.range), (Examples.nestX, Examples.nestX.range)]
      = ⟨⟨10⟩, ⟨29⟩⟩ ∧
    ClangDeadcodeElimination.getRemoveRangeLoop Examples.nestSrc ⟨22⟩
        [(Examples.nestX, Examples.nestX.range), (Examples.nestA, Examples.nestA.range)]
      = ⟨⟨18⟩, ⟨23⟩⟩ ∧
    [(Examples.nestX, Examples.nestX.range), (Examples.nestA, Examples.nestA.range)].Perm
      [(Examples.nestA, Examples.nestA.range), (Examples.nestX, Examples.nestX.range)] :=
  ⟨by decide, by decide, List.Perm.swap _ _ _⟩

/-! ## Elements whose end does not resolve -/

/-- C14 (code evaluated at the failing input): in the text of the lines
`#define S ;` and `int a S` no `;` follows the declaration of `a`, the lookup of
its end answers the invalid location, and `GlobalReduction::test` still records
a range for `a`, from its begin to location 1, the invalid location shifted by
one; `removeUnusedElements` on the like local `x` records nothing. -/
theorem C14_test_records_unresolved_range :
    getEndLocationUntil Examples.macroSrc Examples.macroA.range ';' = SourceLocation.invalid ∧
    (GlobalReduction.removeLoop Examples.macroSrc [Examples.macroA]
        (RewriteBuffer.ofSource Examples.macroSrc) [] []).2.1 = [⟨⟨13⟩, ⟨1⟩⟩] ∧
    (GlobalReduction.removeLoop Examples.macroSrc [Examples.macroA]
        (RewriteBuffer.ofSource Examples.macroSrc) [] []).2.2 = [[]] ∧
    (Examples.macroC.getRemoveRange ⟨26⟩).isInvalid = true ∧
    (ClangDeadcodeElimination.removeLoop Examples.macroC Examples.macroC.UnusedLocations
        Examples.macroC.TheRewriter [] []).2.1 = [] := by
  decide

/-! ## Rollback of the batch of unused locals -/

/-- C20: for every rewriter, every `LocationMapping` and every list of flagged
locations, when the oracle rejects, the text after `removeUnusedElements`
returns is byte-identical to the text before the call. -/
theorem C20_removeUnusedElements_rollback (oracle : Oracle) (C : ClangDeadcodeElimination)
    (_hreject : ∀ t, oracle t = false) :
    (C.removeUnusedElements oracle).TheRewriter.text = C.TheRewriter.text := by
  rw [ClangDeadcodeElimination.removeUnusedElements_rewriter]

/-- Witness of C20: in `void f(){int a,b;}` the two flagged locations resolve to
the same range of the statement, and the oracle rejects. -/
theorem C20_removeUnusedElements_rollback_witness :
    (∀ t, Examples.rejectAll t = false) ∧
    Examples.pairC.getRemoveRange ⟨14⟩ = Examples.pairC.getRemoveRange ⟨16⟩ ∧
    (Examples.pairC.removeUnusedElements Examples.rejectAll).TheRewriter.text
      = Examples.pairC.TheRewriter.text :=
  ⟨fun _ => rfl, by decide,
    C20_removeUnusedElements_rollback Examples.rejectAll Examples.pairC (fun _ => rfl)⟩


/-! ## BlockElimination::removeBlock -/

theorem SourceLocation.getLocWithOffset_one (L : SourceLocation) :
    (L.getLocWithOffset 1).ID = L.ID + 1 := by
  unfold SourceLocation.getLocWithOffset
  show ((L.ID : Int) + 1).toNat = L.ID + 1
  omega

/-- The rewriter, the record of oracle calls and the disk after `removeBlock`. -/
theorem BlockElimination.removeBlock_spec (oracle : Oracle) (B : BlockElimination)
    (LBracLoc RBracLoc : SourceLocation) :
    (B.removeBlock oracle LBracLoc RBracLoc).TheRewriter =
        (if oracle (removeAll B.TheRewriter
            [braceRange LBracLoc, braceRange RBracLoc]).text = true then
          removeAll B.TheRewriter [braceRange LBracLoc, braceRange RBracLoc]
        else
          revertLoop [braceRange LBracLoc, braceRange RBracLoc]
            (captured B.TheRewriter [braceRange LBracLoc, braceRange RBracLoc])
            (removeAll B.TheRewriter [braceRange LBracLoc, braceRange RBracLoc])) ∧
      (B.removeBlock oracle LBracLoc RBracLoc).OracleCalls =
        B.OracleCalls ++
          [(removeAll B.TheRewriter [braceRange LBracLoc, braceRange RBracLoc]).text] ∧
      (B.removeBlock oracle LBracLoc RBracLoc).Disk =
        (B.removeBlock oracle LBracLoc RBracLoc).TheRewriter.text := by
  unfold BlockElimination.removeBlock
  simp only [Transformation.overwriteChangedFiles, Transformation.callOracle, removeAll,
    captured, revertLoop, braceRange]
  split_ifs <;> simp_all

theorem braceRange_not_overlaps (L R : SourceLocation) (h : L.ID < R.ID) :
    [braceRange L, braceRange R].Pairwise (fun R S => ¬ R.Overlaps S) := by
  simp only [List.pairwise_cons, List.mem_singleton, forall_eq, List.not_mem_nil,
    IsEmpty.forall_iff, implies_true, List.Pairwise.nil, and_true]
  unfold SourceRange.Overlaps braceRange
  simp only [SourceLocation.getLocWithOffset_one]
  omega

/-! ## Texts without some of their bytes -/

theorem textWithout_append (Rs : List SourceRange) (l : Nat) (X Y : List Char) :
    textWithout Rs l (X ++ Y) = textWithout Rs l X ++ textWithout Rs (l + X.length) Y := by
  induction X generalizing l with
  | nil => simp [textWithout]
  | cons c cs ih =>
    rw [List.cons_append]
    simp only [textWithout, List.length_cons]
    rw [ih (l + 1)]
    have : l + 1 + cs.length = l + (cs.length + 1) := by omega
    rw [this]
    split_ifs <;> simp

theorem textWithout_eq_self (Rs : List SourceRange) (l : Nat) (X : List Char)
    (h : ∀ k, l ≤ k → k < l + X.length → ∀ R ∈ Rs, ¬ R.covers k) :
    textWithout Rs l X = X := by
  induction X generalizing l with
  | nil => rfl
  | cons c cs ih =>
    have hl : Rs.any (fun R => decide (R.covers l)) = false := by
      rw [List.any_eq_false]
      intro R hR
      simpa using h l (le_refl l) (by simp) R hR
    simp only [textWithout, hl, Bool.false_eq_true, if_false]
    rw [ih (l + 1) (fun k hk hk2 => h k (by omega) (by simp only [List.length_cons]; omega))]

theorem textWithout_covered (Rs : List SourceRange) (l : Nat) (c : Char)
    (h : ∃ R ∈ Rs, R.covers l) : textWithout Rs l [c] = [] := by
  have hl : Rs.any (fun R => decide (R.covers l)) = true := by
    rw [List.any_eq_true]
    obtain ⟨R, hR, hc⟩ := h
    exact ⟨R, hR, by simpa using hc⟩
  simp [textWithout, hl]

/-- Taking the two braces of a block out of a text. -/
theorem textWithout_braces (A Body D : List Char) (x y : Char) :
    textWithout [braceRange ⟨A.length + 1⟩, braceRange ⟨A.length + Body.length + 2⟩] 1
        (A ++ x :: (Body ++ y :: D)) = A ++ (Body ++ D) := by
  have hcov : ∀ k : Nat, ∀ R ∈ [braceRange ⟨A.length + 1⟩,
      braceRange ⟨A.length + Body.length + 2⟩], R.covers k →
        k = A.length + 1 ∨ k = A.length + Body.length + 2 := by
    intro k R hR hc
    simp only [List.mem_cons, List.mem_singleton, List.not_mem_nil, or_false] at hR
    rcases hR with hR | hR <;>
      (subst hR
       unfold SourceRange.covers braceRange at hc
       simp only [SourceLocation.getLocWithOffset_one] at hc
       omega)
  have hx : (x :: (Body ++ y :: D)) = [x] ++ (Body ++ ([y] ++ D)) := rfl
  rw [hx, textWithout_append, textWithout_append, textWithout_append, textWithout_append]
  rw [textWithout_eq_self _ 1 A (fun k hk hk2 R hR hc => by
    rcases hcov k R hR hc with h | h <;> omega)]
  rw [textWithout_covered _ _ x ⟨_, List.mem_cons_self _ _, by
    unfold SourceRange.covers braceRange
    simp only [SourceLocation.getLocWithOffset_one]
    omega⟩]
  rw [textWithout_eq_self _ _ Body (fun k hk hk2 R hR hc => by
    simp only [List.length_singleton] at hk hk2
    rcases hcov k R hR hc with h | h <;> omega)]
  rw [textWithout_covered _ _ y ⟨_, List.mem_cons_of_mem _ (List.mem_singleton.mpr rfl), by
    unfold SourceRange.covers braceRange
    simp only [SourceLocation.getLocWithOffset_one, List.length_singleton]
    omega⟩]
  rw [textWithout_eq_self _ _ D (fun k hk hk2 R hR hc => by
    simp only [List.length_singleton] at hk hk2
    rcases hcov k R hR hc with h | h <;> omega)]
  simp


theorem text_ofSource (Src : List Char) : (RewriteBuffer.ofSource Src).text = Src := by
  unfold RewriteBuffer.text RewriteBuffer.ofSource
  induction Src with
  | nil => rfl
  | cons c cs ih =>
    rw [List.map_cons, List.cons_append, List.flatten_cons, ih]
    rfl

/-- C11: on a text of the shape `pre { ws1 { body } ws2 } post`, the visit of the
outer compound statement, whose only child is the inner one, calls
`removeBlock`, which leaves `pre { ws1 body ws2 } post` when the oracle accepts
that text, one pair of braces around the statements and every other byte
unchanged, and leaves the text as it was when the oracle rejects it. -/
theorem C11_block_flattening (oracle : Oracle) (B : BlockElimination)
    (pre ws1 body ws2 post : List Char) (inner : List StmtNode)
    (hfresh : B.TheRewriter = RewriteBuffer.ofSource
      (pre ++ '\x7b' :: (ws1 ++ '\x7b' :: (body ++ '\x7d' :: (ws2 ++ '\x7d' :: post))))) :
    (B.VisitCompoundStmt oracle
        (StmtNode.CompoundStmt ⟨pre.length + 1⟩
          ⟨pre.length + ws1.length + body.length + ws2.length + 4⟩
          [StmtNode.CompoundStmt ⟨pre.length + ws1.length + 2⟩
            ⟨pre.length + ws1.length + body.length + 3⟩ inner])).TheRewriter.text =
      if oracle (pre ++ '\x7b' :: (ws1 ++ (body ++ (ws2 ++ '\x7d' :: post)))) = true then
        pre ++ '\x7b' :: (ws1 ++ (body ++ (ws2 ++ '\x7d' :: post)))
      else
        pre ++ '\x7b' :: (ws1 ++ '\x7b' :: (body ++ '\x7d' :: (ws2 ++ '\x7d' :: post))) := by
  have key := textWithout_braces (pre ++ '\x7b' :: ws1) body (ws2 ++ '\x7d' :: post)
    '\x7b' '\x7d'
  have e1 : (pre ++ '\x7b' :: ws1).length + 1 = pre.length + ws1.length + 2 := by
    simp only [List.length_append, List.length_cons]
    omega
  have e2 : (pre ++ '\x7b' :: ws1).length + body.length + 2
      = pre.length + ws1.length + body.length + 3 := by
    simp only [List.length_append, List.length_cons]
    omega
  rw [e1, e2] at key
  simp only [List.append_assoc, List.cons_append] at key
  have htext : (removeAll B.TheRewriter [braceRange ⟨pre.length + ws1.length + 2⟩,
      braceRange ⟨pre.length + ws1.length + body.length + 3⟩]).text
      = pre ++ '\x7b' :: (ws1 ++ (body ++ (ws2 ++ '\x7d' :: post))) := by
    rw [removeAll_eq_mapLoc, hfresh]
    exact (flatten_mapLoc_ofSource _ 1 _).trans key
  have hdisj := braceRange_not_overlaps ⟨pre.length + ws1.length + 2⟩
    ⟨pre.length + ws1.length + body.length + 3⟩
    (by show pre.length + ws1.length + 2 < pre.length + ws1.length + body.length + 3; omega)
  have hback := text_revertLoop_removeAll _ hdisj B.TheRewriter
  simp only [BlockElimination.VisitCompoundStmt]
  rw [(BlockElimination.removeBlock_spec oracle B _ _).1, htext]
  split_ifs with h
  · exact htext
  · rw [hback, hfresh, text_ofSource]

/-- Witness of C11: the body of `f` in `void f(){ {x;} }`. -/
theorem C11_block_flattening_witness :
    Examples.blockB.TheRewriter = RewriteBuffer.ofSource
      ("void f()".toList ++ '\x7b' :: (" ".toList ++ '\x7b' :: ("x;".toList ++
        '\x7d' :: (" ".toList ++ '\x7d' :: [])))) ∧
    (Examples.blockB.VisitCompoundStmt Examples.acceptAll
        (StmtNode.CompoundStmt ⟨"void f()".toList.length + 1⟩
          ⟨"void f()".toList.length + " ".toList.length + "x;".toList.length
            + " ".toList.length + 4⟩
          [StmtNode.CompoundStmt ⟨"void f()".toList.length + " ".toList.length + 2⟩
            ⟨"void f()".toList.length + " ".toList.length + "x;".toList.length + 3⟩
            [StmtNode.Other []]])).TheRewriter.text =
      if Examples.acceptAll ("void f()".toList ++ '\x7b' :: (" ".toList ++ ("x;".toList ++
          (" ".toList ++ '\x7d' :: [])))) = true then
        "void f()".toList ++ '\x7b' :: (" ".toList ++ ("x;".toList ++
          (" ".toList ++ '\x7d' :: [])))
      else
        "void f()".toList ++ '\x7b' :: (" ".toList ++ '\x7b' :: ("x;".toList ++
          '\x7d' :: (" ".toList ++ '\x7d' :: []))) :=
  ⟨by decide, C11_block_flattening Examples.acceptAll Examples.blockB "void f()".toList
    " ".toList "x;".toList " ".toList [] [StmtNode.Other []] (by decide)⟩


/-! ## BlockEliminationVisitor::VisitCompoundStmt -/

/-- C19 (as amended): on the visit of a compound statement `CS` a deletion is
attempted, and the oracle run exactly once, if and only if `CS` has exactly
one child and that child is a compound statement; the oracle then sees the
text without the two one-character ranges of the opening and the closing
brace of that child, the inner compound statement, and otherwise nothing is
changed and the oracle is not run. -/
theorem C19_inner_braces_attempted (oracle : Oracle) (B : BlockElimination)
    (LBracLoc RBracLoc : SourceLocation) (body : List StmtNode) :
    (∀ L R inner, body = [StmtNode.CompoundStmt L R inner] →
      (B.VisitCompoundStmt oracle (StmtNode.CompoundStmt LBracLoc RBracLoc body)).OracleCalls =
        B.OracleCalls ++ [(removeAll B.TheRewriter [braceRange L, braceRange R]).text]) ∧
    ((¬ ∃ L R inner, body = [StmtNode.CompoundStmt L R inner]) →
      B.VisitCompoundStmt oracle (StmtNode.CompoundStmt LBracLoc RBracLoc body) = B) ∧
    ((B.VisitCompoundStmt oracle (StmtNode.CompoundStmt LBracLoc RBracLoc body)).OracleCalls.length
        = B.OracleCalls.length + 1 ↔
      ∃ L R inner, body = [StmtNode.CompoundStmt L R inner]) := by
  have hyes : ∀ L R inner, body = [StmtNode.CompoundStmt L R inner] →
      (B.VisitCompoundStmt oracle (StmtNode.CompoundStmt LBracLoc RBracLoc body)).OracleCalls =
        B.OracleCalls ++ [(removeAll B.TheRewriter [braceRange L, braceRange R]).text] := by
    intro L R inner hbody
    subst hbody
    simp only [BlockElimination.VisitCompoundStmt]
    exact (BlockElimination.removeBlock_spec oracle B L R).2.1
  have hno : (¬ ∃ L R inner, body = [StmtNode.CompoundStmt L R inner]) →
      B.VisitCompoundStmt oracle (StmtNode.CompoundStmt LBracLoc RBracLoc body) = B := by
    intro hnot
    match body, hnot with
    | [], _ => rfl
    | [StmtNode.Other _], _ => rfl
    | [StmtNode.CompoundStmt L R inner], hnot => exact absurd ⟨L, R, inner, rfl⟩ hnot
    | _ :: _ :: _, _ => simp [BlockElimination.VisitCompoundStmt]
  refine ⟨hyes, hno, ?_⟩
  constructor
  · intro hlen
    by_contra hnot
    rw [hno hnot] at hlen
    omega
  · rintro ⟨L, R, inner, hbody⟩
    rw [hyes L R inner hbody]
    simp

/-- C19 (as stated) fails: on the body of `f` in `void f(){ {x;} }` the oracle is
run on `void f(){ x; }`, the text without the braces of the inner block, and
not on `void f() {x;} `, the text without the braces of the visited outer one. -/
theorem C19_counterexample :
    (Examples.blockB.VisitCompoundStmt Examples.acceptAll Examples.blockCS).OracleCalls
      = ["void f()\x7b x; \x7d".toList] ∧
    textWithout [braceRange ⟨9⟩, braceRange ⟨16⟩] 1 Examples.blockSrc
      = "void f() \x7bx;\x7d ".toList ∧
    (Examples.blockB.VisitCompoundStmt Examples.acceptAll Examples.blockCS).OracleCalls
      ≠ [textWithout [braceRange ⟨9⟩, braceRange ⟨16⟩] 1 Examples.blockSrc] := by
  decide

/-! ## Disk and memory -/

theorem GlobalReduction.test_calls_disk (oracle : Oracle) (G : GlobalReduction)
    (Ds : List DDElement) :
    (GlobalReduction.test oracle G Ds).2.OracleCalls =
        G.OracleCalls ++
          [(removeAll G.TheRewriter (Ds.map (GlobalReduction.rangeOf G.Source))).text] ∧
      (GlobalReduction.test oracle G Ds).2.Disk =
        (GlobalReduction.test oracle G Ds).2.TheRewriter.text := by
  simp only [GlobalReduction.test, GlobalReduction.removeLoop_eq, GlobalReduction.callOracle,
    Transformation.callOracle, Transformation.overwriteChangedFiles]
  split_ifs <;> simp_all

theorem ClangDeadcodeElimination.removeUnusedElements_disk (oracle : Oracle)
    (C : ClangDeadcodeElimination) :
    (C.removeUnusedElements oracle).Disk = (C.removeUnusedElements oracle).TheRewriter.text := by
  unfold ClangDeadcodeElimination.removeUnusedElements
  simp only [Transformation.overwriteChangedFiles, Transformation.callOracle]
  split_ifs <;> simp_all

/-- C13: in `GlobalReduction::test`, `removeUnusedElements` and `removeBlock` the
oracle is run exactly once per call, on a disk text equal to the text that
the rewriter holds after the deletions of the call, and when the operation
returns, on the accept path and on the reject path, the disk text equals the
text of the rewriter. -/
theorem C13_disk_matches_memory (oracle : Oracle) (G : GlobalReduction)
    (ToBeRemoved : List DDElement) (C : ClangDeadcodeElimination) (B : BlockElimination)
    (LBracLoc RBracLoc : SourceLocation) :
    ((GlobalReduction.test oracle G ToBeRemoved).2.OracleCalls =
        G.OracleCalls ++
          [(removeAll G.TheRewriter
            (ToBeRemoved.map (GlobalReduction.rangeOf G.Source))).text] ∧
      (GlobalReduction.test oracle G ToBeRemoved).2.Disk =
        (GlobalReduction.test oracle G ToBeRemoved).2.TheRewriter.text) ∧
    ((C.removeUnusedElements oracle).OracleCalls =
        C.OracleCalls ++
          [(ClangDeadcodeElimination.removeLoop C C.UnusedLocations
            C.TheRewriter [] []).1.text] ∧
      (C.removeUnusedElements oracle).Disk = (C.removeUnusedElements oracle).TheRewriter.text) ∧
    ((B.removeBlock oracle LBracLoc RBracLoc).OracleCalls =
        B.OracleCalls ++
          [(removeAll B.TheRewriter [braceRange LBracLoc, braceRange RBracLoc]).text] ∧
      (B.removeBlock oracle LBracLoc RBracLoc).Disk =
        (B.removeBlock oracle LBracLoc RBracLoc).TheRewriter.text) :=
  ⟨GlobalReduction.test_calls_disk oracle G ToBeRemoved,
    ⟨ClangDeadcodeElimination.removeUnusedElements_calls oracle C,
      ClangDeadcodeElimination.removeUnusedElements_disk oracle C⟩,
    (BlockElimination.removeBlock_spec oracle B LBracLoc RBracLoc).2⟩


/-! ## Length of the text -/

theorem length_keep_add_remove (R : SourceRange) (l : Nat) (cs : RewriteBuffer) :
    (mapLoc (RewriteBuffer.keepCell R) l cs).flatten.length +
      (mapLoc (RewriteBuffer.removeCell R) l cs).flatten.length = cs.flatten.length := by
  induction cs generalizing l with
  | nil => rfl
  | cons c cs ih =>
    have := ih (l + 1)
    simp only [mapLoc, List.flatten_cons, List.length_append, RewriteBuffer.keepCell,
      RewriteBuffer.removeCell]
    split_ifs <;> (try simp only [List.length_nil]) <;> omega

theorem length_getSourceText_add (RB : RewriteBuffer) (R : SourceRange) :
    (RB.getSourceText R).length + (RB.removeSourceText R).text.length = RB.text.length :=
  length_keep_add_remove R 1 RB

theorem length_captured_add (Rs : List SourceRange) (RB : RewriteBuffer) :
    (captured RB Rs).flatten.length + (removeAll RB Rs).text.length = RB.text.length := by
  induction Rs generalizing RB with
  | nil => simp [captured, removeAll]
  | cons R Rs ih =>
    have h1 := ih (RB.removeSourceText R)
    have h2 := length_getSourceText_add RB R
    simp only [captured, removeAll, List.flatten_cons, List.length_append]
    omega

theorem length_replace_le (R : SourceRange) (t : List Char) (l : Nat) (cs : RewriteBuffer) :
    (mapLoc (RewriteBuffer.replaceCell R t) l cs).flatten.length ≤
      cs.flatten.length + (if l ≤ R.B.ID then t.length else 0) := by
  induction cs generalizing l with
  | nil => simp [mapLoc]
  | cons c cs ih =>
    have := ih (l + 1)
    simp only [mapLoc, List.flatten_cons, List.length_append, RewriteBuffer.replaceCell]
    split_ifs at this ⊢ <;> (try simp only [List.length_append, List.length_nil]) <;> omega

theorem length_ReplaceText_le (RB : RewriteBuffer) (R : SourceRange) (t : List Char) :
    (RB.ReplaceText R t).text.length ≤ RB.text.length + t.length := by
  have := length_replace_le R t 1 RB
  unfold RewriteBuffer.ReplaceText RewriteBuffer.text
  split_ifs at this <;> omega

theorem length_revertLoop_le (Rs : List SourceRange) (ts : List (List Char))
    (RB : RewriteBuffer) :
    (revertLoop Rs ts RB).text.length ≤ RB.text.length + ts.flatten.length := by
  induction Rs generalizing ts RB with
  | nil => simp [revertLoop]
  | cons R Rs ih =>
    cases ts with
    | nil => simp [revertLoop]
    | cons t ts =>
      have h1 := ih ts (RB.ReplaceText R t)
      have h2 := length_ReplaceText_le RB R t
      simp only [revertLoop, List.flatten_cons, List.length_append]
      omega

/-- A call of `test` never makes the text longer. -/
theorem GlobalReduction.test_length_le (oracle : Oracle) (G : GlobalReduction)
    (Ds : List DDElement) :
    (GlobalReduction.test oracle G Ds).2.TheRewriter.text.length ≤ G.TheRewriter.text.length := by
  have hsum := length_captured_add (Ds.map (GlobalReduction.rangeOf G.Source)) G.TheRewriter
  rw [GlobalReduction.test_rewriter]
  split_ifs
  · omega
  · have := length_revertLoop_le (Ds.map (GlobalReduction.rangeOf G.Source))
      (captured G.TheRewriter (Ds.map (GlobalReduction.rangeOf G.Source)))
      (removeAll G.TheRewriter (Ds.map (GlobalReduction.rangeOf G.Source)))
    omega

theorem length_mapLoc_le (f g : Nat → List Char → List Char) (l : Nat) (cs : RewriteBuffer)
    (h : ∀ k c, (f k c).length ≤ (g k c).length) :
    (mapLoc f l cs).flatten.length ≤ (mapLoc g l cs).flatten.length := by
  induction cs generalizing l with
  | nil => simp [mapLoc]
  | cons c cs ih =>
    have h1 := ih (l + 1)
    have h2 := h l c
    simp only [mapLoc, List.flatten_cons, List.length_append]
    omega

theorem length_removeAll_le_remove (Rs : List SourceRange) (R : SourceRange) (hR : R ∈ Rs)
    (RB : RewriteBuffer) :
    (removeAll RB Rs).text.length ≤ (RB.removeSourceText R).text.length := by
  rw [removeAll_eq_mapLoc]
  apply length_mapLoc_le
  intro k c
  unfold RewriteBuffer.removeCell
  by_cases hc : R.covers k
  · have : Rs.any (fun R => decide (R.covers k)) = true := by
      rw [List.any_eq_true]
      exact ⟨R, hR, by simpa using hc⟩
    simp [this]
  · simp only [hc, if_false]
    split_ifs <;> simp

/-- An accepted call of `test` makes the text shorter when some listed range
still holds a byte. -/
theorem GlobalReduction.test_length_lt (oracle : Oracle) (G : GlobalReduction)
    (Ds : List DDElement) (haccept : (GlobalReduction.test oracle G Ds).1 = true)
    (hbyte : ∃ D ∈ Ds, G.TheRewriter.getSourceText (GlobalReduction.rangeOf G.Source D) ≠ []) :
    (GlobalReduction.test oracle G Ds).2.TheRewriter.text.length < G.TheRewriter.text.length := by
  obtain ⟨D, hD, hne⟩ := hbyte
  have h1 := length_removeAll_le_remove (Ds.map (GlobalReduction.rangeOf G.Source))
    (GlobalReduction.rangeOf G.Source D) (List.mem_map_of_mem _ hD) G.TheRewriter
  have h2 := length_getSourceText_add G.TheRewriter (GlobalReduction.rangeOf G.Source D)
  have h3 : 0 < (G.TheRewriter.getSourceText (GlobalReduction.rangeOf G.Source D)).length :=
    List.length_pos.mpr hne
  rw [GlobalReduction.test_rewriter, haccept]
  simp only [if_true]
  omega

theorem testSeq_length_le (oracle : Oracle) (Calls : List (List DDElement))
    (G : GlobalReduction) :
    (testSeq oracle G Calls).TheRewriter.text.length ≤ G.TheRewriter.text.length := by
  induction Calls generalizing G with
  | nil => exact le_refl _
  | cons Ds Calls ih =>
    have h1 := ih (GlobalReduction.test oracle G Ds).2
    have h2 := GlobalReduction.test_length_le oracle G Ds
    unfold testSeq at h1 ⊢
    rw [List.foldl_cons]
    omega

theorem testSeq_append (oracle : Oracle) (G : GlobalReduction)
    (Before After : List (List DDElement)) :
    testSeq oracle G (Before ++ After) = testSeq oracle (testSeq oracle G Before) After := by
  unfold testSeq
  rw [List.foldl_append]

/-- C12 (as amended): the text after `GlobalReduction::test` is never longer than
before the call, whatever the verdict; it is strictly shorter when the oracle
accepted and at least one listed range still held a byte of the text; so over
any sequence of calls the length is non-increasing, and it strictly decreases
across the sequence when one call is accepted on a range that still holds a
byte. A non-empty list of elements is not enough for a strict decrease. -/
theorem C12_monotonic_shrinkage (oracle : Oracle) (G : GlobalReduction)
    (ToBeRemoved : List DDElement) (Before After : List (List DDElement)) :
    (GlobalReduction.test oracle G ToBeRemoved).2.TheRewriter.text.length
        ≤ G.TheRewriter.text.length ∧
      ((GlobalReduction.test oracle G ToBeRemoved).1 = true →
        (∃ D ∈ ToBeRemoved,
          G.TheRewriter.getSourceText (GlobalReduction.rangeOf G.Source D) ≠ []) →
        (GlobalReduction.test oracle G ToBeRemoved).2.TheRewriter.text.length
          < G.TheRewriter.text.length) ∧
      (testSeq oracle G Before).TheRewriter.text.length ≤ G.TheRewriter.text.length ∧
      ((GlobalReduction.test oracle (testSeq oracle G Before) ToBeRemoved).1 = true →
        (∃ D ∈ ToBeRemoved, (testSeq oracle G Before).TheRewriter.getSourceText
          (GlobalReduction.rangeOf (testSeq oracle G Before).Source D) ≠ []) →
        (testSeq oracle G (Before ++ ToBeRemoved :: After)).TheRewriter.text.length
          < G.TheRewriter.text.length) := by
  refine ⟨GlobalReduction.test_length_le oracle G ToBeRemoved,
    GlobalReduction.test_length_lt oracle G ToBeRemoved,
    testSeq_length_le oracle Before G, fun haccept hbyte => ?_⟩
  have h1 := testSeq_length_le oracle Before G
  have h2 := GlobalReduction.test_length_lt oracle (testSeq oracle G Before) ToBeRemoved
    haccept hbyte
  have h3 := testSeq_length_le oracle After
    (GlobalReduction.test oracle (testSeq oracle G Before) ToBeRemoved).2
  rw [testSeq_append]
  have h4 : testSeq oracle (testSeq oracle G Before) (ToBeRemoved :: After) =
      testSeq oracle (GlobalReduction.test oracle (testSeq oracle G Before) ToBeRemoved).2
        After := rfl
  rw [h4]
  omega

/-- C12 (as stated) fails: on `int a,b;void f(){static int c;}` an accepted `test`
on `a` removes the whole statement `int a,b;`; the next call, on the non-empty
list that holds `b`, is accepted as well and leaves the length of the text as
it was, 23 bytes. -/
theorem C12_counterexample :
    (GlobalReduction.test Examples.acceptAll
      (GlobalReduction.test Examples.acceptAll (GlobalReduction.start Examples.sharedSrc)
        [Examples.varA]).2 [Examples.varB]).1 = true ∧
    (GlobalReduction.test Examples.acceptAll (GlobalReduction.start Examples.sharedSrc)
        [Examples.varA]).2.TheRewriter.text.length = 23 ∧
    (GlobalReduction.test Examples.acceptAll
      (GlobalReduction.test Examples.acceptAll (GlobalReduction.start Examples.sharedSrc)
        [Examples.varA]).2 [Examples.varB]).2.TheRewriter.text.length = 23 := by
  decide


/-! ## Delta debugging: what a rejected test of one element leaves -/

theorem SourceRange.Overlaps_symm (R S : SourceRange) (h : ¬ R.Overlaps S) : ¬ S.Overlaps R := by
  unfold SourceRange.Overlaps at h ⊢
  omega

theorem removeSourceText_comm (RB : RewriteBuffer) (R S : SourceRange) :
    (RB.removeSourceText R).removeSourceText S = (RB.removeSourceText S).removeSourceText R := by
  unfold RewriteBuffer.removeSourceText
  rw [mapLoc_mapLoc, mapLoc_mapLoc]
  apply mapLoc_congr
  intro k _ c
  unfold RewriteBuffer.removeCell
  split_ifs <;> rfl

theorem getSourceText_removeSourceText (RB : RewriteBuffer) (R S : SourceRange)
    (h : ¬ R.Overlaps S) : (RB.removeSourceText R).getSourceText S = RB.getSourceText S := by
  unfold RewriteBuffer.removeSourceText RewriteBuffer.getSourceText
  rw [mapLoc_mapLoc]
  congr 1
  apply mapLoc_congr
  intro k _ c
  unfold RewriteBuffer.keepCell RewriteBuffer.removeCell SourceRange.covers
  unfold SourceRange.Overlaps at h
  split_ifs <;> first | rfl | (exfalso; omega)

/-- The rollback of another range that shares no byte with `R` does not change
what the text is once `R` is removed. -/
theorem text_remove_after_other_rollback (RB : RewriteBuffer) (R S : SourceRange)
    (h : ¬ S.Overlaps R) :
    (((RB.removeSourceText S).ReplaceText S (RB.getSourceText S)).removeSourceText R).text
      = (RB.removeSourceText R).text := by
  rw [← ReplaceText_removeSourceText_comm _ S R _ h (captured_safe RB S),
    removeSourceText_comm RB S R,
    ← getSourceText_removeSourceText RB R S (SourceRange.Overlaps_symm S R h)]
  exact text_ReplaceText_removeSourceText (RB.removeSourceText R) S

/-- The rollback of `R` itself does not change what the buffer is once `R` is
removed again. -/
theorem remove_after_own_rollback (RB : RewriteBuffer) (R : SourceRange) :
    ((RB.removeSourceText R).ReplaceText R (RB.getSourceText R)).removeSourceText R
      = RB.removeSourceText R := by
  have hsafe := captured_safe RB R
  unfold RewriteBuffer.ReplaceText RewriteBuffer.removeSourceText
  rw [mapLoc_mapLoc, mapLoc_mapLoc]
  apply mapLoc_congr
  intro k hk c
  unfold RewriteBuffer.removeCell RewriteBuffer.replaceCell SourceRange.covers
  rcases hsafe with hne | hnil
  · unfold SourceRange.Nonempty at hne
    split_ifs <;> first | rfl | (exfalso; omega)
  · rw [hnil]
    split_ifs <;> first | rfl | (exfalso; omega)

theorem GlobalReduction.test_Source (oracle : Oracle) (G : GlobalReduction)
    (Ds : List DDElement) : (G.test oracle Ds).2.Source = G.Source := by
  simp only [GlobalReduction.test, GlobalReduction.callOracle, Transformation.callOracle,
    Transformation.overwriteChangedFiles]
  split_ifs <;> rfl

theorem GlobalReduction.test_UseInfo (oracle : Oracle) (G : GlobalReduction)
    (Ds : List DDElement) : (G.test oracle Ds).2.UseInfo = G.UseInfo := by
  simp only [GlobalReduction.test, GlobalReduction.callOracle, Transformation.callOracle,
    Transformation.overwriteChangedFiles]
  split_ifs <;> rfl

theorem GlobalReduction.test_single_fst (oracle : Oracle) (G : GlobalReduction) (D : DDElement) :
    (G.test oracle [D]).1 =
      oracle (G.TheRewriter.removeSourceText (GlobalReduction.rangeOf G.Source D)).text := by
  rw [GlobalReduction.test_fst]
  rfl

theorem GlobalReduction.test_single_rewriter (oracle : Oracle) (G : GlobalReduction)
    (D : DDElement) (h : (G.test oracle [D]).1 = false) :
    (G.test oracle [D]).2.TheRewriter =
      (G.TheRewriter.removeSourceText (GlobalReduction.rangeOf G.Source D)).ReplaceText
        (GlobalReduction.rangeOf G.Source D)
        (G.TheRewriter.getSourceText (GlobalReduction.rangeOf G.Source D)) := by
  rw [GlobalReduction.test_rewriter, h]
  rfl


theorem tryChunks_Source_UseInfo (oracle : Oracle) (Chunks : List DDElementVector)
    (G : GlobalReduction) :
    (tryChunks oracle Chunks G).2.Source = G.Source ∧
      (tryChunks oracle Chunks G).2.UseInfo = G.UseInfo := by
  induction Chunks generalizing G with
  | nil => exact ⟨rfl, rfl⟩
  | cons Chunk rest ih =>
    simp only [tryChunks]
    split_ifs
    · exact ⟨GlobalReduction.test_Source oracle G Chunk, GlobalReduction.test_UseInfo oracle G Chunk⟩
    · have := ih (G.test oracle Chunk).2
      rw [GlobalReduction.test_Source, GlobalReduction.test_UseInfo] at this
      exact this

theorem tryChunks_some_mem (oracle : Oracle) (Chunks : List DDElementVector)
    (G : GlobalReduction) (Chunk : DDElementVector)
    (h : (tryChunks oracle Chunks G).1 = some Chunk) : Chunk ∈ Chunks := by
  induction Chunks generalizing G with
  | nil => simp [tryChunks] at h
  | cons C rest ih =>
    simp only [tryChunks] at h
    split_ifs at h
    · simp only [Option.some.injEq] at h
      rw [← h]
      exact List.mem_cons_self _ _
    · exact List.mem_cons_of_mem _ (ih _ h)

/-- A pass over one-element chunks whose ranges pairwise share no byte, in which
no chunk is accepted: afterwards a test of any of the elements alone is
rejected, and what the text is once a range outside the chunks is removed has
not changed. -/
theorem tryChunks_singletons_none (oracle : Oracle) (Ds : List DDElement)
    (G : GlobalReduction)
    (hnone : (tryChunks oracle (Ds.map (fun D => [D])) G).1 = none)
    (hdisj : (Ds.map (GlobalReduction.rangeOf G.Source)).Pairwise (fun R S => ¬ R.Overlaps S)) :
    (∀ R, (∀ D ∈ Ds, ¬ (GlobalReduction.rangeOf G.Source D).Overlaps R) →
        ((tryChunks oracle (Ds.map (fun D => [D])) G).2.TheRewriter.removeSourceText R).text
          = (G.TheRewriter.removeSourceText R).text) ∧
      ∀ D ∈ Ds, ((tryChunks oracle (Ds.map (fun D => [D])) G).2.test oracle [D]).1 = false := by
  induction Ds generalizing G with
  | nil => exact ⟨fun _ _ => rfl, fun _ h => absurd h (List.not_mem_nil _)⟩
  | cons D rest ih =>
    simp only [List.map_cons, tryChunks] at hnone ⊢
    rw [List.map_cons, List.pairwise_cons] at hdisj
    cases hv : (G.test oracle [D]).1 with
    | true => simp [hv] at hnone
    | false =>
      simp only [hv, Bool.false_eq_true, if_false] at hnone ⊢
      have hSrc := GlobalReduction.test_Source oracle G [D]
      have hdisj2 : (rest.map (GlobalReduction.rangeOf (G.test oracle [D]).2.Source)).Pairwise
          (fun R S => ¬ R.Overlaps S) := by
        rw [hSrc]
        exact hdisj.2
      obtain ⟨ih1, ih2⟩ := ih (G.test oracle [D]).2 hnone hdisj2
      rw [hSrc] at ih1
      have hbuf := GlobalReduction.test_single_rewriter oracle G D hv
      constructor
      · intro R hR
        rw [ih1 R (fun D2 hD2 => hR D2 (List.mem_cons_of_mem _ hD2)), hbuf]
        exact text_remove_after_other_rollback G.TheRewriter R _ (hR D (List.mem_cons_self _ _))
      · intro D2 hD2
        rcases List.mem_cons.mp hD2 with hD2 | hD2
        · subst hD2
          rw [GlobalReduction.test_single_fst, (tryChunks_Source_UseInfo oracle _ _).1, hSrc]
          rw [ih1 _ (fun D3 hD3 => SourceRange.Overlaps_symm _ _
            (hdisj.1 _ (List.mem_map_of_mem _ hD3))), hbuf, remove_after_own_rollback]
          rw [← GlobalReduction.test_single_fst oracle G D2]
          exact hv
        · exact ih2 D2 hD2


/-! ## Delta debugging: the chunks -/

theorem splitChunks_one (count : Nat) (Decls : List DDElement)
    (h : Decls.length = count + 1) :
    splitChunks 1 count Decls = Decls.map (fun D => [D]) := by
  induction count generalizing Decls with
  | zero =>
    match Decls, h with
    | [D], _ => rfl
  | succ count ih =>
    match Decls, h with
    | D :: rest, h =>
      simp only [splitChunks, List.take_succ_cons, List.take_zero, List.drop_succ_cons,
        List.drop_zero, List.map_cons]
      rw [ih rest (by simpa using h)]

/-- With as many chunks as elements every element is a chunk of its own. -/
theorem getCandidates_length (Decls : List DDElement) (h : Decls.length ≠ 0) :
    getCandidates Decls Decls.length = Decls.map (fun D => [D]) := by
  unfold getCandidates
  rw [Nat.div_self (Nat.pos_of_ne_zero h)]
  exact splitChunks_one _ _ (by omega)

theorem splitChunks_mem (size : Nat) (hsize : 1 ≤ size) (count : Nat) (Decls : List DDElement)
    (hlen : count * size < Decls.length) (Chunk : DDElementVector)
    (hmem : Chunk ∈ splitChunks size count Decls) :
    Chunk ≠ [] ∧ ∀ D ∈ Chunk, D ∈ Decls := by
  induction count generalizing Decls with
  | zero =>
    simp only [splitChunks, List.mem_singleton] at hmem
    subst hmem
    exact ⟨fun h => by simp [h] at hlen, fun _ h => h⟩
  | succ count ih =>
    simp only [splitChunks, List.mem_cons] at hmem
    have hmul : (count + 1) * size = count * size + size := Nat.succ_mul count size
    rcases hmem with hmem | hmem
    · subst hmem
      refine ⟨fun h => ?_, fun D hD => List.mem_of_mem_take hD⟩
      have hl : (Decls.take size).length = 0 := by rw [h]; rfl
      rw [List.length_take] at hl
      omega
    · have hlen2 : count * size < (Decls.drop size).length := by
        rw [List.length_drop]
        omega
      obtain ⟨h1, h2⟩ := ih (Decls.drop size) hlen2 hmem
      exact ⟨h1, fun D hD => List.mem_of_mem_drop (h2 D hD)⟩

/-- Every chunk of a partition into at most as many chunks as elements holds an
element of the candidate set. -/
theorem getCandidates_mem (Decls : List DDElement) (k : Nat) (hk : 1 ≤ k)
    (hkn : k ≤ Decls.length) (Chunk : DDElementVector) (hmem : Chunk ∈ getCandidates Decls k) :
    Chunk ≠ [] ∧ ∀ D ∈ Chunk, D ∈ Decls := by
  unfold getCandidates at hmem
  have hq : 1 ≤ Decls.length / k := (Nat.one_le_div_iff (by omega)).mpr hkn
  have hle : Decls.length / k * k ≤ Decls.length := Nat.div_mul_le_self _ _
  have hmul : (k - 1) * (Decls.length / k) + Decls.length / k = Decls.length / k * k := by
    generalize Decls.length / k = q
    rw [Nat.mul_comm q k]
    have hs := Nat.succ_mul (k - 1) q
    have hk1 : (k - 1).succ = k := by omega
    rw [hk1] at hs
    exact hs.symm
  exact splitChunks_mem _ hq _ _ (by omega) Chunk hmem

theorem GlobalReduction.refineChunks_state (G : GlobalReduction)
    (Chunks : List DDElementVector) :
    (G.refineChunks Chunks).2.Source = G.Source ∧
      (G.refineChunks Chunks).2.TheRewriter = G.TheRewriter ∧
      ∀ E, (G.refineChunks Chunks).2.UseInfo.uses E = G.UseInfo.uses E :=
  ⟨rfl, rfl, (GlobalReduction.refineLoop_spec Chunks G.UseInfo []).2⟩

theorem GlobalReduction.refineChunks_singletons (G : GlobalReduction) (Decls : List DDElement) :
    (G.refineChunks (Decls.map (fun D => [D]))).1 =
      (Decls.filter (fun D => G.UseInfo.uses D == 0)).map (fun D => [D]) := by
  have h := (GlobalReduction.refineLoop_spec (Decls.map (fun D => [D])) G.UseInfo []).1
  simp only [GlobalReduction.refineChunks]
  rw [h, List.nil_append, List.filter_map]
  congr 1
  apply List.filter_congr
  intro D _
  simp


/-! ## Delta debugging: the loop -/

/-- One round of the loop, unfolded. -/
theorem ddLoop_succ (oracle : Oracle) (rounds : Nat) (G : GlobalReduction)
    (Decls : List DDElement) (g : Nat) :
    ddLoop oracle (rounds + 1) G Decls g =
      if Decls.length = 0 then some (Decls, G)
      else
        match (tryChunks oracle (G.refineChunks (getCandidates Decls (min g Decls.length))).1
            (G.refineChunks (getCandidates Decls (min g Decls.length))).2).1 with
        | some Chunk =>
          ddLoop oracle rounds
            (tryChunks oracle (G.refineChunks (getCandidates Decls (min g Decls.length))).1
              (G.refineChunks (getCandidates Decls (min g Decls.length))).2).2
            (Decls.filter (fun D => !Chunk.contains D)) g
        | none =>
          if Decls.length ≤ g then
            some (Decls,
              (tryChunks oracle (G.refineChunks (getCandidates Decls (min g Decls.length))).1
                (G.refineChunks (getCandidates Decls (min g Decls.length))).2).2)
          else
            ddLoop oracle rounds
              (tryChunks oracle (G.refineChunks (getCandidates Decls (min g Decls.length))).1
                (G.refineChunks (getCandidates Decls (min g Decls.length))).2).2
              Decls (min (2 * g) Decls.length) := rfl

/-- The state in which a pass ends keeps the source and every use count. -/
theorem pass_state (oracle : Oracle) (G : GlobalReduction) (Chunks : List DDElementVector) :
    (tryChunks oracle (G.refineChunks Chunks).1 (G.refineChunks Chunks).2).2.Source = G.Source ∧
      ∀ E, (tryChunks oracle (G.refineChunks Chunks).1
        (G.refineChunks Chunks).2).2.UseInfo.uses E = G.UseInfo.uses E := by
  have h1 := tryChunks_Source_UseInfo oracle (G.refineChunks Chunks).1 (G.refineChunks Chunks).2
  have h2 := GlobalReduction.refineChunks_state G Chunks
  refine ⟨h1.1.trans h2.1, fun E => ?_⟩
  rw [h1.2]
  exact h2.2.2 E

/-- What the loop returns: a sub-sequence of the candidate set in a state where a
test of any remaining element without recorded use, alone, is rejected. -/
theorem ddLoop_spec (oracle : Oracle) (rounds : Nat) (G : GlobalReduction)
    (Decls : List DDElement) (g : Nat) (res : List DDElement × GlobalReduction)
    (h : ddLoop oracle rounds G Decls g = some res)
    (hdisj : (Decls.map (GlobalReduction.rangeOf G.Source)).Pairwise
      (fun R S => ¬ R.Overlaps S)) :
    res.1.Sublist Decls ∧ res.2.Source = G.Source ∧
      (∀ E, res.2.UseInfo.uses E = G.UseInfo.uses E) ∧
      ∀ D ∈ res.1, G.UseInfo.uses D = 0 → (res.2.test oracle [D]).1 = false := by
  induction rounds generalizing G Decls g with
  | zero => simp [ddLoop] at h
  | succ rounds ih =>
    rw [ddLoop_succ] at h
    have hpass := pass_state oracle G (getCandidates Decls (min g Decls.length))
    by_cases h0 : Decls.length = 0
    · rw [if_pos h0] at h
      simp only [Option.some.injEq] at h
      subst h
      have hnil : Decls = [] := List.length_eq_zero.mp h0
      exact ⟨List.Sublist.refl _, rfl, fun _ => rfl, fun D hD => by simp [hnil] at hD⟩
    · rw [if_neg h0] at h
      split at h
      · rename_i Chunk hChunk
        have hsub : (Decls.filter (fun D => !Chunk.contains D)).Sublist Decls :=
          List.filter_sublist _
        have hdisj2 := hdisj.sublist (hsub.map (GlobalReduction.rangeOf G.Source))
        rw [← hpass.1] at hdisj2
        obtain ⟨r1, r2, r3, r4⟩ := ih _ _ _ h hdisj2
        refine ⟨r1.trans hsub, r2.trans hpass.1, fun E => (r3 E).trans (hpass.2 E), ?_⟩
        intro D hD hzero
        exact r4 D hD ((hpass.2 D).trans hzero)
      · rename_i hnone
        by_cases hg : Decls.length ≤ g
        · rw [if_pos hg] at h
          simp only [Option.some.injEq] at h
          subst h
          refine ⟨List.Sublist.refl _, hpass.1, hpass.2, ?_⟩
          intro D hD hzero
          have hmin : min g Decls.length = Decls.length := by omega
          rw [hmin, getCandidates_length Decls h0,
            GlobalReduction.refineChunks_singletons] at hnone ⊢
          have hst := GlobalReduction.refineChunks_state G (Decls.map (fun D => [D]))
          have hsub : (Decls.filter (fun D => G.UseInfo.uses D == 0)).Sublist Decls :=
            List.filter_sublist _
          have hdisj2 := hdisj.sublist (hsub.map (GlobalReduction.rangeOf G.Source))
          rw [← hst.1] at hdisj2
          exact (tryChunks_singletons_none oracle _ _ hnone hdisj2).2 D
            (List.mem_filter.mpr ⟨hD, by simp [hzero]⟩)
        · rw [if_neg hg] at h
          have hdisj2 := hdisj
          rw [← hpass.1] at hdisj2
          obtain ⟨r1, r2, r3, r4⟩ := ih _ _ _ h hdisj2
          refine ⟨r1, r2.trans hpass.1, fun E => (r3 E).trans (hpass.2 E), ?_⟩
          intro D hD hzero
          exact r4 D hD ((hpass.2 D).trans hzero)


/-- An accepted chunk takes at least one element out of the candidate set. -/
theorem length_filter_accepted (oracle : Oracle) (G : GlobalReduction) (Decls : List DDElement)
    (k : Nat) (hk : 1 ≤ k) (hkn : k ≤ Decls.length) (Chunk : DDElementVector)
    (h : (tryChunks oracle (G.refineChunks (getCandidates Decls k)).1
      (G.refineChunks (getCandidates Decls k)).2).1 = some Chunk) :
    (Decls.filter (fun D => !Chunk.contains D)).length < Decls.length := by
  have hmem := tryChunks_some_mem oracle _ _ Chunk h
  rw [(GlobalReduction.refineChunks_eq_filter G (getCandidates Decls k)), List.mem_filter] at hmem
  obtain ⟨hne, hsub⟩ := getCandidates_mem Decls k hk hkn Chunk hmem.1
  obtain ⟨D, rest, hD⟩ := List.exists_cons_of_ne_nil hne
  rw [List.length_filter_lt_length_iff_exists]
  refine ⟨D, hsub D (by rw [hD]; exact List.mem_cons_self _ _), ?_⟩
  simp [hD]

/-- The loop returns when it is given enough rounds. -/
theorem ddLoop_isSome (oracle : Oracle) (rounds : Nat) (G : GlobalReduction)
    (Decls : List DDElement) (g N : Nat) (hN : Decls.length ≤ N) (hg : 1 ≤ g)
    (hrounds : Decls.length + (N - min g N) < rounds) :
    (ddLoop oracle rounds G Decls g).isSome = true := by
  induction rounds generalizing G Decls g with
  | zero => omega
  | succ rounds ih =>
    rw [ddLoop_succ]
    by_cases h0 : Decls.length = 0
    · rw [if_pos h0]
      rfl
    · rw [if_neg h0]
      split
      · rename_i Chunk hChunk
        have hlt := length_filter_accepted oracle G Decls (min g Decls.length) (by omega)
          (by omega) Chunk hChunk
        exact ih _ _ _ (by omega) hg (by omega)
      · by_cases hgn : Decls.length ≤ g
        · rw [if_pos hgn]
          rfl
        · rw [if_neg hgn]
          exact ih _ _ _ hN (by omega) (by omega)


/-- C17 (as amended): for every candidate set whose deletion ranges pairwise share
no byte and every oracle, the run of delta debugging that
`HandleTranslationUnit` starts returns, what remains is a sub-sequence of the
candidate set, and calling `test` on any single remaining element that has no
recorded use is rejected by the oracle. Nothing is claimed for remaining
elements with recorded uses, which `refineChunks` keeps away from `test`, nor
for a second run of the engine on its own output. -/
theorem C17_one_minimal_among_unused (oracle : Oracle) (G : GlobalReduction)
    (hdisj : (G.HandleTranslationUnitElements.map (GlobalReduction.rangeOf G.Source)).Pairwise
      (fun R S => ¬ R.Overlaps S)) :
    ∃ res, G.HandleTranslationUnit oracle = some res ∧
      res.1.Sublist G.HandleTranslationUnitElements ∧
      ∀ D ∈ res.1, G.UseInfo.uses D = 0 → (res.2.test oracle [D]).1 = false := by
  have hsome := ddLoop_isSome oracle (2 * G.HandleTranslationUnitElements.length + 1) G
    G.HandleTranslationUnitElements 2 G.HandleTranslationUnitElements.length (le_refl _)
    (by omega) (by omega)
  obtain ⟨res, hres⟩ := Option.isSome_iff_exists.mp hsome
  obtain ⟨h1, _, _, h4⟩ := ddLoop_spec oracle _ G _ 2 res hres hdisj
  exact ⟨res, hres, h1, h4⟩

/-- Witness of C17 (as amended): the five function definitions of
`a(){}b(){}c(){}d(){}e(){}`, one after the other. -/
theorem C17_one_minimal_among_unused_witness :
    (Examples.fiveG.HandleTranslationUnitElements.map
      (GlobalReduction.rangeOf Examples.fiveG.Source)).Pairwise (fun R S => ¬ R.Overlaps S) ∧
    ∃ res, Examples.fiveG.HandleTranslationUnit Examples.fiveOracle = some res ∧
      res.1.Sublist Examples.fiveG.HandleTranslationUnitElements ∧
      ∀ D ∈ res.1, Examples.fiveG.UseInfo.uses D = 0 →
        (res.2.test Examples.fiveOracle [D]).1 = false :=
  ⟨by decide, C17_one_minimal_among_unused Examples.fiveOracle Examples.fiveG (by decide)⟩

/-- C17 (as stated) fails twice. In `void f(){}void g(){f();}` with an oracle that
accepts every text the run removes `g` and leaves `f`, whose recorded use is
the call in `g`; `f` is never tested, and `test` on `f` alone is accepted. In
`a(){}b(){}c(){}d(){}e(){}`, no element used, with an oracle that accepts the
whole text, the text without `e` and the text of `c` and `d`, the run leaves
`a`, `b`, `c`, `d`, and a second run on that output removes `a` and `b`. -/
theorem C17_counterexample :
    ((Examples.staleCollected.HandleTranslationUnit Examples.acceptAll).map (fun r => r.1)
        = some [Examples.staleF] ∧
      (Examples.staleCollected.HandleTranslationUnit Examples.acceptAll).map
        (fun r => (r.2.test Examples.acceptAll [Examples.staleF]).1) = some true) ∧
    ((Examples.fiveG.HandleTranslationUnit Examples.fiveOracle).map (fun r => r.1)
        = some [Examples.fiveDecl 0, Examples.fiveDecl 1, Examples.fiveDecl 2,
          Examples.fiveDecl 3] ∧
      ((Examples.fiveG.HandleTranslationUnit Examples.fiveOracle).bind
        (fun r => doDeltaDebugging Examples.fiveOracle r.2 r.1)).map (fun r => r.1)
        = some [Examples.fiveDecl 2, Examples.fiveDecl 3]) := by
  decide

end Chisel
